import Mathlib

/-!
Verification of the MedFlow dispatch-and-execution core against its design
specification.  The Lean definitions below are shallow embeddings of the
TypeScript sources:

* `src/frontend/src/utils/pathfinding.ts` — A* grid search (`findPath`,
  `isCellWalkable`, `heuristic`, `reconstructPath`, path utilities);
* `src/frontend/src/utils/dispatcher.ts` — priority scoring and greedy
  assignment (`calculateEffectivePriority`, `sortJobsByPriority`,
  `findBestAgentForJob`, `createAgentPlan`, `createPlan`);
* the agent/job stores and the tick executor (unnamed source parts 002, 004,
  005) — battery mutators, job assignment/clearing, the critical-battery
  branch, the pickup/dropoff action completion, and the replan-cooldown gate.

JavaScript numbers are modelled as `ℚ` (all arithmetic performed by the code
on these values is exact on rationals); grid coordinates are `ℤ` (JS integers,
including the negative candidates produced by `x - 1`); A* costs `g`, `h`,
`f` are `ℕ` (they are built from 0 by `+1` and Manhattan distances only).
-/

namespace MedFlow

/-- A grid position (`types` / used throughout `pathfinding.ts`). -/
structure Position where
  x : Int
  y : Int
deriving DecidableEq, Repr

/-- One floor tile; the fields read by the pathfinder
(`pathfinding.ts` lines 108–125).  `restrictedAccessProfiles` is an optional
field in the source (`cell.restrictedAccessProfiles || []`). -/
structure GridCell where
  walkable : Bool
  isObstacle : Bool
  isQuarantine : Bool
  isRestricted : Bool
  restrictedAccessProfiles : Option (List String)
deriving DecidableEq, Repr

/-- A floor: row-major grid (`grid[y][x]`). -/
structure Floor where
  id : String
  grid : List (List GridCell)
deriving DecidableEq, Repr

/-- Agent status enumeration (`types`, as used by the stores and the tick
executor). -/
inductive AgentStatus where
  | IDLE | MOVING | PICKING_UP | DROPPING_OFF | CHARGING | WAITING
deriving DecidableEq, Repr

/-- Fleet pool tag. -/
inductive AgentPool where
  | URGENT | NON_URGENT
deriving DecidableEq, Repr

/-- An agent (cart); the fields read or written by the dispatcher, the
pathfinder and the agent store (unnamed part 005). -/
structure Agent where
  id : String
  name : String
  position : Position
  floorId : String
  speed : Rat
  battery : Rat
  maxBattery : Rat
  batteryDrainRate : Rat
  payloadLimit : Rat
  currentPayload : Rat
  accessProfiles : List String
  status : AgentStatus
  pool : AgentPool
  currentJobId : Option String
deriving DecidableEq, Repr

/-- Priority tiers (`dispatcher.ts` lines 4–10). -/
inductive PriorityTier where
  | IMMEDIATE | EMERGENCY | URGENT | SEMI_URGENT | NON_URGENT
deriving DecidableEq, Repr

/-- `PRIORITY_ORDER` (`dispatcher.ts` lines 4–10). -/
def PRIORITY_ORDER : PriorityTier → Rat
  | .IMMEDIATE => 0
  | .EMERGENCY => 1
  | .URGENT => 2
  | .SEMI_URGENT => 3
  | .NON_URGENT => 4

/-- Job lifecycle states (`types`, as used by the job store, part 004). -/
inductive JobState where
  | QUEUED | ASSIGNED | IN_PROGRESS | DELIVERED | DELAYED | INFEASIBLE
deriving DecidableEq, Repr

/-- A pickup/dropoff endpoint of a job. -/
structure JobLocation where
  floorId : String
  position : Position
deriving DecidableEq, Repr

/-- The item descriptor of a job (only `weight` is read by the core). -/
structure JobItem where
  itemType : String
  quantity : Nat
  weight : Rat
deriving DecidableEq, Repr

/-- A job's progress record (`job.progress` in part 004:
`{ pickedUp, pickupTime?, deliveredTime? }`). -/
structure JobProgress where
  pickedUp : Bool
  pickupTime : Option Rat
  deliveredTime : Option Rat
deriving DecidableEq, Repr

/-- A job; the fields read or written by the dispatcher, the job store
(part 004) and the tick executor (part 002). -/
structure Job where
  id : String
  priority : PriorityTier
  deadline : Rat
  createdAt : Rat
  state : JobState
  assignedAgentId : Option String
  pickup : Option JobLocation
  dropoff : JobLocation
  item : JobItem
  pickupServiceTime : Rat
  dropoffServiceTime : Rat
  progress : Option JobProgress
deriving DecidableEq, Repr

/-- A charger (`map.chargers`; position, floor and charge rate). -/
structure Charger where
  position : Position
  floorId : String
  chargeRate : Rat
deriving DecidableEq, Repr

/-- The hospital map as consumed by the core: floors and chargers. -/
structure HospitalMap where
  floors : List Floor
  chargers : List Charger
deriving DecidableEq, Repr

/-! ## Pathfinder (`src/frontend/src/utils/pathfinding.ts`) -/

/-- `isValidPosition` (lines 104–106). -/
def isValidPosition (pos : Position) (rows cols : Nat) : Bool :=
  decide (0 ≤ pos.x) && decide (pos.x < (cols : Int)) &&
    decide (0 ≤ pos.y) && decide (pos.y < (rows : Int))

/-- Grid lookup `grid[pos.y]?.[pos.x]`: JS array indexing with a negative or
out-of-range index yields `undefined`. -/
def cellAt (grid : List (List GridCell)) (pos : Position) : Option GridCell :=
  if pos.y < 0 ∨ pos.x < 0 then none
  else (grid[pos.y.toNat]?).bind fun row => row[pos.x.toNat]?

/-- `isCellWalkable` (lines 108–125): walkable, no obstacle, no quarantine;
when the cell is restricted AND an agent is supplied, a non-empty
required-profile list must intersect the agent's access profiles. -/
def isCellWalkable (cell : GridCell) (agent : Option Agent) : Bool :=
  if cell.walkable = false then false
  else if cell.isObstacle then false
  else if cell.isQuarantine then false
  else
    match cell.isRestricted, agent with
    | true, some ag =>
      let allowedProfiles := cell.restrictedAccessProfiles.getD []
      if 0 < allowedProfiles.length then
        ag.accessProfiles.any fun p => allowedProfiles.contains p
      else true
    | _, _ => true

/-- `heuristic` (lines 127–130): Manhattan distance. -/
def manhattan (a b : Position) : Nat :=
  (a.x - b.x).natAbs + (a.y - b.y).natAbs

/-- An A* search node (lines 3–10).  `parent` carries the reconstruction
chain, exactly as the source's parent pointers do. -/
inductive Node : Type where
  | mk : Int → Int → Nat → Nat → Nat → Option Node → Node

def Node.x : Node → Int
  | .mk x _ _ _ _ _ => x

def Node.y : Node → Int
  | .mk _ y _ _ _ _ => y

def Node.g : Node → Nat
  | .mk _ _ g _ _ _ => g

def Node.h : Node → Nat
  | .mk _ _ _ h _ _ => h

def Node.f : Node → Nat
  | .mk _ _ _ _ f _ => f

def Node.parent : Node → Option Node
  | .mk _ _ _ _ _ p => p

def Node.pos (n : Node) : Position := ⟨n.x, n.y⟩

/-- `reconstructPath` (lines 132–142): walk the parent chain, building the
position list front-first. -/
def reconstructPath : Node → List Position
  | .mk x y _ _ _ none => [⟨x, y⟩]
  | .mk x y _ _ _ (some par) => reconstructPath par ++ [⟨x, y⟩]

/-- The frontier comparator: `openSet.sort((a, b) => a.f - b.f)` sorts
ascending by `f`.  JS `Array.prototype.sort` is a stable sort, and a stable
ascending sort's output is uniquely determined by the comparator;
`List.insertionSort` below computes exactly that stable sort (and, unlike
`List.mergeSort`, reduces inside the kernel). -/
def openLe (a b : Node) : Prop := a.f ≤ b.f

instance : DecidableRel openLe := fun a b =>
  inferInstanceAs (Decidable (a.f ≤ b.f))

instance : IsTotal Node openLe := ⟨fun a b => Nat.le_total a.f b.f⟩

instance : IsTrans Node openLe := ⟨fun _ _ _ => Nat.le_trans⟩

/-- The `openSet.find` / in-place update part of the neighbor loop
(lines 78–97): if a node with the neighbor's coordinates exists, update it
when the new `g` is smaller (new `f`, parent re-pointed, stored `h` kept);
otherwise report `none` so the caller pushes a fresh node. -/
def updateOpenNode (g f : Nat) (cur : Node) (nx ny : Int) :
    List Node → Option (List Node)
  | [] => none
  | n :: rest =>
    if n.x = nx ∧ n.y = ny then
      some ((if g < n.g then Node.mk nx ny g n.h f (some cur) else n) :: rest)
    else
      (updateOpenNode g f cur nx ny rest).map (n :: ·)

/-- The body of the neighbor loop (lines 67–98) for a single neighbor
position: skip when out of bounds, already closed, missing, or not walkable;
otherwise relax (update an existing open node or push a new one). -/
def relaxNeighbor (rows cols : Nat) (grid : List (List GridCell))
    (agent : Option Agent) (endP : Position) (closed : List (Int × Int))
    (current : Node) (openSet : List Node) (npos : Position) : List Node :=
  if isValidPosition npos rows cols = false then openSet
  else if (npos.x, npos.y) ∈ closed then openSet
  else
    match cellAt grid npos with
    | none => openSet
    | some cell =>
      if isCellWalkable cell agent = false then openSet
      else
        let g := current.g + 1
        let h := manhattan npos endP
        let f := g + h
        match updateOpenNode g f current npos.x npos.y openSet with
        | some openSet' => openSet'
        | none => openSet ++ [Node.mk npos.x npos.y g h f (some current)]

/-- The four neighbor candidates, in source order (lines 60–65). -/
def neighborsOfPos (p : Position) : List Position :=
  [⟨p.x + 1, p.y⟩, ⟨p.x - 1, p.y⟩, ⟨p.x, p.y + 1⟩, ⟨p.x, p.y - 1⟩]

/-- The A* main loop (lines 47–99), fuelled.  Each iteration pops the
lowest-`f` node (stable sort then shift), returns on reaching the goal,
otherwise closes the popped position (the source adds to `closedSet` before
the neighbor loop) and relaxes the four neighbors.  Each iteration closes a
position never closed before, so `rows * cols + 1` fuel (supplied by
`findPath`) can never run out before the open set empties. -/
def aStarLoop (rows cols : Nat) (grid : List (List GridCell))
    (agent : Option Agent) (endP : Position) :
    Nat → List Node → List (Int × Int) → Option (List Position)
  | 0, _, _ => none
  | Nat.succ fuel, openSet, closed =>
    match List.insertionSort openLe openSet with
    | [] => none
    | current :: rest =>
      if current.x = endP.x ∧ current.y = endP.y then
        some (reconstructPath current)
      else
        let closed' := (current.x, current.y) :: closed
        let openSet' := (neighborsOfPos current.pos).foldl
          (relaxNeighbor rows cols grid agent endP closed' current) rest
        aStarLoop rows cols grid agent endP fuel openSet' closed'

/-- `findPath` (lines 13–102): bounds checks, cell existence, end-cell
walkability (the start cell is looked up but never walkability-checked),
then the A* loop seeded with the start node (`g = 0`, `f = g + h`). -/
def findPath (floor : Floor) (start endP : Position) (agent : Option Agent) :
    Option (List Position) :=
  let grid := floor.grid
  let rows := grid.length
  let cols := (grid.head?.map List.length).getD 0
  if isValidPosition start rows cols = false ∨
      isValidPosition endP rows cols = false then none
  else
    match cellAt grid start, cellAt grid endP with
    | some _, some endCell =>
      if isCellWalkable endCell agent = false then none
      else
        let startNode : Node :=
          Node.mk start.x start.y 0 (manhattan start endP)
            (0 + manhattan start endP) none
        aStarLoop rows cols grid agent endP (rows * cols + 1) [startNode] []
    | _, _ => none

/-- `getPathLength` (lines 145–147): steps = positions − 1. -/
def getPathLength (path : List Position) : Int :=
  (path.length : Int) - 1

/-- `getPathBatteryDrain` (lines 155–160). -/
def getPathBatteryDrain (path : List Position) (drainRate : Rat) : Rat :=
  (getPathLength path : Rat) * drainRate

/-! ## Priority engine and dispatcher (`src/frontend/src/utils/dispatcher.ts`) -/

/-- `calculateEffectivePriority` (lines 13–33).  The source's
`starvationThreshold` parameter defaults to 300; call sites in this
repository always use the default. -/
def calculateEffectivePriority (job : Job) (currentTime : Rat)
    (starvationThreshold : Rat) : Rat :=
  let score := PRIORITY_ORDER job.priority * 1000
  let timeToDeadline := job.deadline - currentTime
  let score := score + max 0 timeToDeadline
  let waitTime := currentTime - job.createdAt
  if waitTime > starvationThreshold ∧ job.priority ≠ .IMMEDIATE then
    score - min (waitTime - starvationThreshold) 500
  else score

/-- `sortJobsByPriority` (lines 36–45): stable ascending sort by effective
priority (JS `Array.prototype.sort` is stable; `List.insertionSort` computes
the same stable ascending sort). -/
def sortJobsByPriority (jobs : List Job) (currentTime : Rat) : List Job :=
  List.insertionSort
    (fun a b => calculateEffectivePriority a currentTime 300 ≤
      calculateEffectivePriority b currentTime 300) jobs

/-- `findBestAgentForJob` (lines 48–114).  Note line 93: with no pickup leg,
`job.pickup?.position || { x: 0, y: 0 }` falls back to position (0, 0), so
both probed legs run through that corner cell. -/
def findBestAgentForJob (job : Job) (agents : List Agent)
    (map : HospitalMap) : Option Agent :=
  let availableAgents := agents.filter fun a =>
    decide (a.status = .IDLE) && a.currentJobId.isNone &&
      decide ((20 : Rat) < a.battery)
  if availableAgents.length = 0 then none
  else
    let isUrgentJob := job.priority = .IMMEDIATE ∨ job.priority = .EMERGENCY
    let poolAgents := availableAgents.filter fun a =>
      if isUrgentJob then decide (a.pool = .URGENT)
      else decide (a.pool = .NON_URGENT)
    let poolAgents :=
      if poolAgents.length = 0 ∧ isUrgentJob then
        availableAgents.filter fun a => decide (a.pool = .NON_URGENT)
      else poolAgents
    let poolAgents := if poolAgents.length = 0 then availableAgents
      else poolAgents
    let poolAgents := poolAgents.filter fun a =>
      decide (job.item.weight ≤ a.payloadLimit)
    if poolAgents.length = 0 then none
    else
      match map.floors.find? fun f => f.id = job.dropoff.floorId with
      | none => none
      | some floor =>
        let best := poolAgents.foldl
          (fun (best : Option (Agent × Nat)) agent =>
            if agent.floorId ≠ job.dropoff.floorId then best
            else
              let pickupPos := (job.pickup.map fun p => p.position).getD ⟨0, 0⟩
              match findPath floor agent.position pickupPos (some agent) with
              | none => best
              | some pathToPickup =>
                match findPath floor pickupPos job.dropoff.position
                    (some agent) with
                | none => best
                | some pathToDropoff =>
                  let totalDrain :=
                    getPathBatteryDrain pathToPickup agent.batteryDrainRate +
                      getPathBatteryDrain pathToDropoff agent.batteryDrainRate
                  if agent.battery - totalDrain < 10 then best
                  else
                    let totalDistance :=
                      pathToPickup.length + pathToDropoff.length
                    match best with
                    | none => some (agent, totalDistance)
                    | some (_, bestScore) =>
                      if totalDistance < bestScore then
                        some (agent, totalDistance)
                      else best)
          none
        best.map Prod.fst

/-- Route step action tags. -/
inductive RouteAction where
  | PICKUP | DROPOFF
deriving DecidableEq, Repr

/-- A `RouteStep` (`types`, produced by `createAgentPlan`). -/
structure RouteStep where
  position : Position
  floorId : String
  arrivalTime : Rat
  action : Option RouteAction
  duration : Option Rat
deriving DecidableEq, Repr

/-- An `AgentPlan` (`types`, produced by `createAgentPlan`). -/
structure AgentPlan where
  agentId : String
  route : List RouteStep
  jobIds : List String
  estimatedEnergy : Rat
  estimatedCO2 : Rat
  conflicts : List String
deriving DecidableEq, Repr

/-- The movement-step emission of `createAgentPlan` (lines 138–144 and
166–173): one `RouteStep` per path cell at the running arrival time, with
`time += 1 / agent.speed` after each. -/
def movementSteps (floorId : String) (speed : Rat) :
    List Position → Rat → List RouteStep × Rat
  | [], time => ([], time)
  | pos :: rest, time =>
    let tail := movementSteps floorId speed rest (time + 1 / speed)
    (⟨pos, floorId, time, none, none⟩ :: tail.1, tail.2)

/-- The dropoff leg of `createAgentPlan` (lines 159–193): path from
`startPos` to the dropoff, movement steps, then the `DROPOFF` action step;
energy accrues `path.length * 0.1` per leg and CO2 is `energy * 0.5`. -/
def dropoffLeg (floor : Floor) (agent : Agent) (job : Job) (time : Rat)
    (route : List RouteStep) (totalEnergy : Rat) (startPos : Position) :
    Option AgentPlan :=
  match findPath floor startPos job.dropoff.position (some agent) with
  | none => none
  | some pathToDropoff =>
    let dropoffEnergy := (pathToDropoff.length : Rat) * (1 / 10)
    let move := movementSteps floor.id agent.speed pathToDropoff time
    let route2 := route ++ move.1 ++
      [⟨job.dropoff.position, floor.id, move.2, some .DROPOFF,
        some job.dropoffServiceTime⟩]
    some ⟨agent.id, route2, [job.id], totalEnergy + dropoffEnergy,
      (totalEnergy + dropoffEnergy) * (1 / 2), []⟩

/-- `createAgentPlan` (lines 117–194): optional pickup leg (movement steps
plus a `PICKUP` action step), then the dropoff leg starting from
`job.pickup?.position || agent.position`. -/
def createAgentPlan (agent : Agent) (job : Job) (map : HospitalMap)
    (currentTime : Rat) : Option AgentPlan :=
  match map.floors.find? fun f => f.id = agent.floorId with
  | none => none
  | some floor =>
    match job.pickup with
    | some pk =>
      match findPath floor agent.position pk.position (some agent) with
      | none => none
      | some pathToPickup =>
        let energy := (pathToPickup.length : Rat) * (1 / 10)
        let move := movementSteps floor.id agent.speed pathToPickup
          currentTime
        let route1 := move.1 ++
          [⟨pk.position, floor.id, move.2, some .PICKUP,
            some job.pickupServiceTime⟩]
        dropoffLeg floor agent job (move.2 + job.pickupServiceTime) route1
          energy pk.position
    | none => dropoffLeg floor agent job currentTime [] 0 agent.position

/-- Aggregate plan metrics (`types`; `createPlan` lines 234–244). -/
structure PlanMetrics where
  totalEnergyWh : Rat
  totalCO2g : Rat
  idleWaitingSeconds : Rat
  idleChargingSeconds : Rat
  onTimePercentage : Rat
  batchedDeliveries : Nat
  deadheadingPercentage : Rat
  energyPerItem : Rat
  lowEmissionChoicesPercentage : Rat
deriving DecidableEq, Repr

/-- A `Plan` (`types`, produced by `createPlan`). -/
structure Plan where
  timestamp : Rat
  agentPlans : List AgentPlan
  unassignedJobIds : List String
  metrics : PlanMetrics
deriving DecidableEq, Repr

/-- `createPlan` (lines 197–252): filter to `QUEUED`, sort by effective
priority, then greedily assign each job to the best agent not yet claimed
in this pass; jobs with no agent (or no buildable plan) become unassigned. -/
def createPlan (jobs : List Job) (agents : List Agent) (map : HospitalMap)
    (currentTime : Rat) : Plan :=
  let sortedJobs := sortJobsByPriority
    (jobs.filter fun j => j.state = .QUEUED) currentTime
  let assign := sortedJobs.foldl
    (fun (acc : List AgentPlan × List String) job =>
      let availableAgents := agents.filter fun a =>
        !(acc.1.any fun p => p.agentId = a.id)
      match findBestAgentForJob job availableAgents map with
      | some bestAgent =>
        match createAgentPlan bestAgent job map currentTime with
        | some plan => (acc.1 ++ [plan], acc.2)
        | none => (acc.1, acc.2 ++ [job.id])
      | none => (acc.1, acc.2 ++ [job.id]))
    ([], [])
  let metrics : PlanMetrics :=
    ⟨(assign.1.map fun p => p.estimatedEnergy).sum,
      (assign.1.map fun p => p.estimatedCO2).sum, 0, 0, 100, 0, 0, 0, 0⟩
  ⟨currentTime, assign.1, assign.2, metrics⟩

/-! ## Agent and job stores (unnamed parts 004 and 005)

The zustand stores hold a list and every mutator finds the first record with
the given id and rewrites it (immer draft mutation); `updateFirstAgent` /
`updateFirstJob` capture that find-and-mutate shape. -/

def updateFirstAgent (agentId : String) (f : Agent → Agent) :
    List Agent → List Agent
  | [] => []
  | a :: rest =>
    if a.id = agentId then f a :: rest
    else a :: updateFirstAgent agentId f rest

def updateFirstJob (jobId : String) (f : Job → Job) : List Job → List Job
  | [] => []
  | j :: rest =>
    if j.id = jobId then f j :: rest
    else j :: updateFirstJob jobId f rest

/-- `drainBattery` (part 005 lines 110–116): clamp at 0 from below. -/
def drainBattery (agents : List Agent) (agentId : String) (amount : Rat) :
    List Agent :=
  updateFirstAgent agentId
    (fun a => { a with battery := max 0 (a.battery - amount) }) agents

/-- `chargeBattery` (part 005 lines 118–124): clamp at `maxBattery`. -/
def chargeBattery (agents : List Agent) (agentId : String) (amount : Rat) :
    List Agent :=
  updateFirstAgent agentId
    (fun a => { a with battery := min a.maxBattery (a.battery + amount) })
    agents

/-- `assignJob` (part 005 lines 159–166). -/
def assignJob (agents : List Agent) (agentId jobId : String) : List Agent :=
  updateFirstAgent agentId
    (fun a => { a with currentJobId := some jobId, status := .MOVING }) agents

/-- `clearJob` (part 005 lines 168–176): clear the job reference, reset the
payload to 0 and return to `IDLE`. -/
def clearJob (agents : List Agent) (agentId : String) : List Agent :=
  updateFirstAgent agentId
    (fun a =>
      { a with currentJobId := none, currentPayload := 0, status := .IDLE })
    agents

/-- `setPayload` (part 005 lines 178–184). -/
def setPayload (agents : List Agent) (agentId : String) (payload : Rat) :
    List Agent :=
  updateFirstAgent agentId (fun a => { a with currentPayload := payload })
    agents

/-- `setJobState` (part 004 lines 74–85); the optional reason is recorded
only for `DELAYED` / `INFEASIBLE`, states our claims never enter, so it is
accepted and dropped here. -/
def setJobState (jobs : List Job) (jobId : String) (newState : JobState)
    (_reason : Option String) : List Job :=
  updateFirstJob jobId (fun j => { j with state := newState }) jobs

/-- `assignAgent` on the job store (part 004 lines 87–94). -/
def assignAgent (jobs : List Job) (jobId agentId : String) : List Job :=
  updateFirstJob jobId
    (fun j => { j with assignedAgentId := some agentId, state := .ASSIGNED })
    jobs

/-- `unassignAgent` on the job store (part 004 lines 96–103); defined for
completeness — the tick executor never calls it. -/
def unassignAgent (jobs : List Job) (jobId : String) : List Job :=
  updateFirstJob jobId
    (fun j => { j with assignedAgentId := none, state := .QUEUED }) jobs

/-- `markPickedUp` (part 004 lines 121–132). -/
def markPickedUp (jobs : List Job) (jobId : String) (time : Rat) :
    List Job :=
  updateFirstJob jobId
    (fun j =>
      let progress := j.progress.getD ⟨false, none, none⟩
      { j with
        progress := some { progress with
          pickedUp := true, pickupTime := some time },
        state := .IN_PROGRESS })
    jobs

/-- `markDelivered` (part 004 lines 134–144). -/
def markDelivered (jobs : List Job) (jobId : String) (time : Rat) :
    List Job :=
  updateFirstJob jobId
    (fun j =>
      let progress := j.progress.getD ⟨true, none, none⟩
      { j with
        progress := some { progress with deliveredTime := some time },
        state := .DELIVERED })
    jobs

/-! ## Tick executor (unnamed part 002) -/

/-- JS truthiness of an optional numeric timestamp (`job.progress?.
deliveredTime` used as a boolean): present and non-zero. -/
def truthyTime : Option Rat → Bool
  | none => false
  | some t => decide (t ≠ 0)

/-- `job.progress?.pickedUp` with JS optional chaining. -/
def progressPickedUp (j : Job) : Bool :=
  (j.progress.map fun p => p.pickedUp).getD false

/-- Truthiness of `job.progress?.deliveredTime`. -/
def progressDelivered (j : Job) : Bool :=
  truthyTime (j.progress.bind fun p => p.deliveredTime)

/-- Store effects of the critical-battery branch of `simulateTick`
(part 002 lines 212–233), for one processed agent: when battery ≤ 5 and the
agent holds a job, `clearJob` is invoked on the agent store.  The job store
is passed through untouched — the branch contains no `setJobState`,
`unassignAgent` or any other job-store call (the charger-diversion
bookkeeping mutates only the in-memory per-agent action state). -/
def criticalBatteryTick (agents : List Agent) (jobs : List Job)
    (agent : Agent) : List Agent × List Job :=
  if agent.battery ≤ 5 then
    if agent.currentJobId.isSome then (clearJob agents agent.id, jobs)
    else (agents, jobs)
  else (agents, jobs)

/-- `PICKUP` action completion (part 002 lines 361–372): walk the plan's
job ids, pick up the first job not yet picked up (mark picked up, set
`IN_PROGRESS`, add the item weight to the payload read from the tick-start
agent snapshot), and stop.  `jobs` is both the job store and the tick-start
snapshot `currentJobs` the loop reads — they coincide when this agent's
action is processed. -/
def completePickup (agents : List Agent) (jobs : List Job) (agent : Agent)
    (simTime : Rat) : List String → List Agent × List Job
  | [] => (agents, jobs)
  | jobId :: rest =>
    match jobs.find? fun j => j.id = jobId with
    | some job =>
      if progressPickedUp job = false then
        (setPayload agents agent.id (agent.currentPayload + job.item.weight),
          setJobState (markPickedUp jobs jobId simTime) jobId .IN_PROGRESS
            none)
      else completePickup agents jobs agent simTime rest
    | none => completePickup agents jobs agent simTime rest

/-- The delivery loop of the `DROPOFF` completion (part 002 lines 375–388):
deliver the first picked-up-but-undelivered job (mark delivered, subtract
the item weight from the snapshot payload, clamped at 0) and stop. -/
def deliverFirst (agents : List Agent) (jobs : List Job) (agent : Agent)
    (simTime : Rat) : List String → List Agent × List Job
  | [] => (agents, jobs)
  | jobId :: rest =>
    match jobs.find? fun j => j.id = jobId with
    | some job =>
      if progressPickedUp job && !progressDelivered job then
        (setPayload agents agent.id
          (max 0 (agent.currentPayload - job.item.weight)),
          markDelivered jobs jobId simTime)
      else deliverFirst agents jobs agent simTime rest
    | none => deliverFirst agents jobs agent simTime rest

/-- `DROPOFF` action completion (part 002 lines 373–399): the delivery loop,
then the `allDelivered` check.  That check (lines 391–394) reads
`currentJobs`, the tick-start snapshot — NOT the store just rewritten by
`markDelivered`: the zustand/immer store replaces state immutably, so the
mutation made earlier in this same tick is invisible to the snapshot
variable.  Hence the argument `jobs` (the snapshot) is consulted, not
`afterDeliver.2`. -/
def completeDropoff (agents : List Agent) (jobs : List Job) (agent : Agent)
    (jobIds : List String) (simTime : Rat) : List Agent × List Job :=
  let afterDeliver := deliverFirst agents jobs agent simTime jobIds
  let allDelivered := jobIds.all fun jobId =>
    match jobs.find? fun j => j.id = jobId with
    | some j => progressDelivered j
    | none => false
  if allDelivered then
    (setPayload (clearJob afterDeliver.1 agent.id) agent.id 0,
      afterDeliver.2)
  else afterDeliver

/-- `REPLAN_COOLDOWN` (part 002 line 58), in simulated seconds. -/
def REPLAN_COOLDOWN : Rat := 5

/-- The replan bookkeeping refs (part 002 lines 56–57):
`lastReplanTimeRef` starts at `-Infinity` (modelled as `none`) and
`lastQueuedJobIdsRef` starts at the empty string. -/
structure ReplanRefs where
  lastReplanTime : Option Rat
  lastQueuedJobIds : String
deriving DecidableEq, Repr

/-- `queuedJobs.map(j => j.id).sort().join(',')` (part 002 line 507). -/
def joinComma : List String → String
  | [] => ""
  | [s] => s
  | s :: rest => s ++ "," ++ joinComma rest

/-- The queued-job-ids fingerprint of a job list (part 002 lines 484, 507). -/
def computeQueuedJobIds (jobs : List Job) : String :=
  joinComma (List.insertionSort (fun a b : String => a ≤ b)
    ((jobs.filter fun j => j.state = .QUEUED).map fun j => j.id))

/-- The replan trigger at the end of `simulateTick` (part 002 lines
505–521): fire the dispatcher only when queued jobs and idle agents exist,
no active routes remain, and (the queued-id fingerprint changed, or the plan
was cleared this tick, or the 5-second cooldown elapsed); on firing, record
the time and the fingerprint. -/
def replanGate (refs : ReplanRefs) (simCurrentTime : Rat)
    (queuedCount idleCount : Nat) (hasActiveRoutes planJustCleared : Bool)
    (queuedJobIds : String) : Bool × ReplanRefs :=
  let jobsChanged := queuedJobIds ≠ refs.lastQueuedJobIds
  let cooldownElapsed : Bool :=
    match refs.lastReplanTime with
    | none => true
    | some t0 => decide (REPLAN_COOLDOWN ≤ simCurrentTime - t0)
  if 0 < queuedCount ∧ 0 < idleCount ∧ hasActiveRoutes = false then
    if jobsChanged ∨ planJustCleared = true ∨ cooldownElapsed = true then
      (true,
        ⟨some simCurrentTime, queuedJobIds⟩)
    else (false, refs)
  else (false, refs)

/-- The observable inputs of one tick, as far as the replan gate reads them. -/
structure GateTick where
  t : Rat
  queuedCount : Nat
  idleCount : Nat
  hasActiveRoutes : Bool
  planJustCleared : Bool
deriving DecidableEq, Repr

/-- Run the replan gate over a sequence of ticks with a fixed queued-id
fingerprint, collecting the simulated times at which the dispatcher fires. -/
def runGate (queuedJobIds : String) : ReplanRefs → List GateTick → List Rat
  | _, [] => []
  | refs, tk :: rest =>
    let step := replanGate refs tk.t tk.queuedCount tk.idleCount
      tk.hasActiveRoutes tk.planJustCleared queuedJobIds
    if step.1 then tk.t :: runGate queuedJobIds step.2 rest
    else runGate queuedJobIds step.2 rest

/-! ## Path predicates for the pathfinder claims -/

/-- `rows` as computed by `findPath` (line 20). -/
def gridRows (floor : Floor) : Nat := floor.grid.length

/-- `cols` as computed by `findPath` (line 21). -/
def gridCols (floor : Floor) : Nat := (floor.grid.head?.map List.length).getD 0

/-- The walkability test the search applies to a looked-up cell. -/
def cellWalkableAt (floor : Floor) (ag : Option Agent) (p : Position) :
    Bool :=
  ((cellAt floor.grid p).map fun c => isCellWalkable c ag).getD false

/-- A cell the pathfinder treats as traversable: in bounds, present in the
grid, and `isCellWalkable` for the given optional agent. -/
def traversableCell (floor : Floor) (ag : Option Agent) (p : Position) :
    Prop :=
  isValidPosition p (gridRows floor) (gridCols floor) = true ∧
    cellWalkableAt floor ag p = true

/-- One admissible search step: `q` is one of the four neighbor candidates
of `p` and is traversable — exactly the acceptance conditions of the
neighbor loop (the search never re-checks `p` itself). -/
def ValidStep (floor : Floor) (ag : Option Agent) (p q : Position) : Prop :=
  q ∈ neighborsOfPos p ∧ traversableCell floor ag q

/-- A search-compatible path from `start`: nonempty, starting at `start`,
every consecutive step admissible.  The first cell is not required to be
traversable, because the source never checks the start cell. -/
def PathOk (floor : Floor) (ag : Option Agent) (start : Position)
    (pth : List Position) : Prop :=
  pth.head? = some start ∧ List.Chain' (ValidStep floor ag) pth

/-- A 4-directionally connected sequence of traversable cells — the
comparison class of the optimality claim: nonempty, consecutive cells
4-adjacent, and every cell (including the first) traversable. -/
def TraversableSeq (floor : Floor) (ag : Option Agent)
    (seq : List Position) : Prop :=
  seq ≠ [] ∧ List.Chain' (fun p q => q ∈ neighborsOfPos p) seq ∧
    ∀ p ∈ seq, traversableCell floor ag p

/-- The starvation discount implicit in `calculateEffectivePriority`
(`dispatcher.ts` lines 26–30): the tier base plus deadline term minus the
effective score. -/
def starvationDiscount (job : Job) (currentTime S : Rat) : Rat :=
  (PRIORITY_ORDER job.priority * 1000 + max 0 (job.deadline - currentTime)) -
    calculateEffectivePriority job currentTime S

/-! ## Concrete fixtures used by the spec's own test scenarios -/

/-- A plain walkable cell. -/
def openCell : GridCell :=
  { walkable := true, isObstacle := false, isQuarantine := false,
    isRestricted := false, restrictedAccessProfiles := none }

/-- A cell flagged as an obstacle (and hence never traversable). -/
def obstacleCell : GridCell :=
  { walkable := true, isObstacle := true, isQuarantine := false,
    isRestricted := false, restrictedAccessProfiles := none }

/-- The open 5×5 grid of the spec's pathfinder test. -/
def open5Floor : Floor :=
  { id := "floor-5", grid := List.replicate 5 (List.replicate 5 openCell) }

/-- A 1×3 corridor whose first cell (0,0) is an obstacle. -/
def corridorFloor : Floor :=
  { id := "floor-corridor", grid := [[obstacleCell, openCell, openCell]] }

/-- A map holding only the corridor floor. -/
def corridorMap : HospitalMap :=
  { floors := [corridorFloor], chargers := [] }

/-- An idle, fully charged agent standing at (1,0) on the corridor floor. -/
def agentA : Agent :=
  { id := "agent-1", name := "Agent 1", position := ⟨1, 0⟩,
    floorId := "floor-corridor", speed := 1, battery := 100,
    maxBattery := 100, batteryDrainRate := 1, payloadLimit := 50,
    currentPayload := 0, accessProfiles := [ "GENERAL" ], status := .IDLE,
    pool := .NON_URGENT, currentJobId := none }

/-- A queued job with no pickup leg whose dropoff (2,0) is directly
reachable from `agentA`. -/
def jobNoPickup : Job :=
  { id := "job-np", priority := .NON_URGENT, deadline := 600, createdAt := 0,
    state := .QUEUED, assignedAgentId := none, pickup := none,
    dropoff := { floorId := "floor-corridor", position := ⟨2, 0⟩ },
    item := { itemType := "meds", quantity := 1, weight := 1 },
    pickupServiceTime := 2, dropoffServiceTime := 2, progress := none }

/-- An agent at critical battery (4%), not charging, holding a job. -/
def agentCritical : Agent :=
  { id := "agent-c4", name := "Agent C4", position := ⟨1, 0⟩,
    floorId := "floor-corridor", speed := 1, battery := 4,
    maxBattery := 100, batteryDrainRate := 1, payloadLimit := 50,
    currentPayload := 1, accessProfiles := [ "GENERAL" ], status := .MOVING,
    pool := .NON_URGENT, currentJobId := some "job-c4" }

/-- The job held by `agentCritical`, in state ASSIGNED. -/
def jobAssigned : Job :=
  { id := "job-c4", priority := .URGENT, deadline := 600, createdAt := 0,
    state := .ASSIGNED, assignedAgentId := some "agent-c4", pickup := none,
    dropoff := { floorId := "floor-corridor", position := ⟨2, 0⟩ },
    item := { itemType := "meds", quantity := 1, weight := 1 },
    pickupServiceTime := 2, dropoffServiceTime := 2, progress := none }

/-- An agent carrying a pre-existing payload of 2 kg, about to run a
single-job pickup/dropoff route. -/
def agentC7 : Agent :=
  { id := "agent-c7", name := "Agent C7", position := ⟨1, 0⟩,
    floorId := "floor-corridor", speed := 1, battery := 100,
    maxBattery := 100, batteryDrainRate := 1, payloadLimit := 50,
    currentPayload := 2, accessProfiles := [ "GENERAL" ], status := .MOVING,
    pool := .NON_URGENT, currentJobId := some "job-c7" }

/-- The single job on `agentC7`'s route (3 kg item, not yet picked up). -/
def jobC7 : Job :=
  { id := "job-c7", priority := .URGENT, deadline := 600, createdAt := 0,
    state := .ASSIGNED, assignedAgentId := some "agent-c7",
    pickup := some { floorId := "floor-corridor", position := ⟨1, 0⟩ },
    dropoff := { floorId := "floor-corridor", position := ⟨2, 0⟩ },
    item := { itemType := "meds", quantity := 1, weight := 3 },
    pickupServiceTime := 2, dropoffServiceTime := 2, progress := none }

/-- A healthy agent used for the battery-bounds witness. -/
def agentB : Agent :=
  { id := "agent-b", name := "Agent B", position := ⟨1, 0⟩,
    floorId := "floor-corridor", speed := 1, battery := 50,
    maxBattery := 100, batteryDrainRate := 1, payloadLimit := 50,
    currentPayload := 0, accessProfiles := [ "GENERAL" ], status := .IDLE,
    pool := .NON_URGENT, currentJobId := none }

/-- A gate tick with queued jobs and idle agents, no active routes and no
plan cleared, at time `t`. -/
def idleTick (t : Rat) : GateTick :=
  { t := t, queuedCount := 1, idleCount := 1, hasActiveRoutes := false,
    planJustCleared := false }

instance : DecidableRel fun p q : Position => q ∈ neighborsOfPos p :=
  fun p q => inferInstanceAs (Decidable (q ∈ neighborsOfPos p))

instance (floor : Floor) (ag : Option Agent) (p : Position) :
    Decidable (traversableCell floor ag p) :=
  inferInstanceAs (Decidable
    (isValidPosition p (gridRows floor) (gridCols floor) = true ∧
      cellWalkableAt floor ag p = true))

instance (floor : Floor) (ag : Option Agent) (seq : List Position) :
    Decidable (TraversableSeq floor ag seq) :=
  inferInstanceAs (Decidable
    (seq ≠ [] ∧ List.Chain' (fun p q => q ∈ neighborsOfPos p) seq ∧
      ∀ p ∈ seq, traversableCell floor ag p))

/-- The path `findPath` returns on the open 5×5 grid from (0,0) to (4,4). -/
def fivePath : List Position :=
  [⟨0, 0⟩, ⟨1, 0⟩, ⟨2, 0⟩, ⟨3, 0⟩, ⟨4, 0⟩, ⟨4, 1⟩, ⟨4, 2⟩, ⟨4, 3⟩, ⟨4, 4⟩]

/-- A queued EMERGENCY job (witness fixture). -/
def jobEmergency : Job :=
  { id := "job-em", priority := .EMERGENCY, deadline := 100, createdAt := 0,
    state := .QUEUED, assignedAgentId := none, pickup := none,
    dropoff := { floorId := "floor-corridor", position := ⟨2, 0⟩ },
    item := { itemType := "meds", quantity := 1, weight := 1 },
    pickupServiceTime := 2, dropoffServiceTime := 2, progress := none }

/-- A queued URGENT job with a nearby deadline (witness fixture). -/
def jobUrgent : Job :=
  { id := "job-ur", priority := .URGENT, deadline := 300, createdAt := 0,
    state := .QUEUED, assignedAgentId := none, pickup := none,
    dropoff := { floorId := "floor-corridor", position := ⟨2, 0⟩ },
    item := { itemType := "meds", quantity := 1, weight := 1 },
    pickupServiceTime := 2, dropoffServiceTime := 2, progress := none }

/-- A queued NON_URGENT job created at time 0 (witness fixture). -/
def jobOld : Job :=
  { id := "job-old", priority := .NON_URGENT, deadline := 900, createdAt := 0,
    state := .QUEUED, assignedAgentId := none, pickup := none,
    dropoff := { floorId := "floor-corridor", position := ⟨2, 0⟩ },
    item := { itemType := "meds", quantity := 1, weight := 1 },
    pickupServiceTime := 2, dropoffServiceTime := 2, progress := none }

/-- The (x, y) key of a node, as used for closed-set membership and
open-set lookups. -/
def nodeKey (n : Node) : Int × Int := (n.x, n.y)

/-- Well-formed search nodes: reachable from the start node by admissible
steps, with `g` counting the steps, `h` the Manhattan heuristic to the goal
and `f = g + h` — the exact shapes built by `findPath` (start node) and the
neighbor relaxation. -/
inductive NodeOk (floor : Floor) (ag : Option Agent) (start endP : Position) :
    Node → Prop where
  | root : NodeOk floor ag start endP
      (Node.mk start.x start.y 0 (manhattan start endP)
        (0 + manhattan start endP) none)
  | step (par : Node) (q : Position)
      (hpar : NodeOk floor ag start endP par)
      (hstep : ValidStep floor ag par.pos q) :
      NodeOk floor ag start endP
        (Node.mk q.x q.y (par.g + 1) (manhattan q endP)
          ((par.g + 1) + manhattan q endP) (some par))

/-- The A* loop invariant.  `closedStep` says every closed position has had
all its admissible successors either closed or recorded in the open set with
a `g` no worse than (any path to the closed position) + 1; `startMem` and
`goalOpen` track the start entry and that the goal is never closed. -/
structure AStarInv (floor : Floor) (ag : Option Agent)
    (start endP : Position) (openSet : List Node)
    (closed : List (Int × Int)) : Prop where
  nodesOk : ∀ n ∈ openSet, NodeOk floor ag start endP n
  uniq : (openSet.map nodeKey).Nodup
  disj : ∀ n ∈ openSet, nodeKey n ∉ closed
  closedStep : ∀ c ∈ closed, ∀ q : Position,
    ValidStep floor ag ⟨c.1, c.2⟩ q →
    ((q.x, q.y) ∈ closed ∨
      ∃ n ∈ openSet, n.pos = q ∧
        ∀ pth, PathOk floor ag start pth →
          pth.getLast? = some (⟨c.1, c.2⟩ : Position) → n.g ≤ pth.length)
  startMem : (start.x, start.y) ∈ closed ∨
    ∃ n ∈ openSet, n.pos = start ∧ n.g = 0
  goalOpen : (endP.x, endP.y) ∉ closed

@[simp]
theorem Node.x_mk (x y : Int) (g h f : Nat) (p : Option Node) :
    (Node.mk x y g h f p).x = x := rfl

@[simp]
theorem Node.y_mk (x y : Int) (g h f : Nat) (p : Option Node) :
    (Node.mk x y g h f p).y = y := rfl

@[simp]
theorem Node.g_mk (x y : Int) (g h f : Nat) (p : Option Node) :
    (Node.mk x y g h f p).g = g := rfl

@[simp]
theorem Node.h_mk (x y : Int) (g h f : Nat) (p : Option Node) :
    (Node.mk x y g h f p).h = h := rfl

@[simp]
theorem Node.f_mk (x y : Int) (g h f : Nat) (p : Option Node) :
    (Node.mk x y g h f p).f = f := rfl

@[simp]
theorem Node.pos_mk (x y : Int) (g h f : Nat) (p : Option Node) :
    (Node.mk x y g h f p).pos = ⟨x, y⟩ := rfl

@[simp]
theorem nodeKey_mk (x y : Int) (g h f : Nat) (p : Option Node) :
    nodeKey (Node.mk x y g h f p) = (x, y) := rfl

theorem NodeOk.h_eq {floor : Floor} {ag : Option Agent} {start endP : Position}
    {n : Node} (hn : NodeOk floor ag start endP n) :
    n.h = manhattan n.pos endP := by
  cases hn <;> simp

theorem NodeOk.f_eq {floor : Floor} {ag : Option Agent} {start endP : Position}
    {n : Node} (hn : NodeOk floor ag start endP n) :
    n.f = n.g + manhattan n.pos endP := by
  cases hn <;> simp

theorem NodeOk.reconstruct {floor : Floor} {ag : Option Agent}
    {start endP : Position} {n : Node} (hn : NodeOk floor ag start endP n) :
    (reconstructPath n).head? = some start ∧
    (reconstructPath n).getLast? = some n.pos ∧
    List.Chain' (ValidStep floor ag) (reconstructPath n) ∧
    (reconstructPath n).length = n.g + 1 := by
  induction hn with
  | root => simp [reconstructPath]
  | step par q hpar hstep ih =>
    obtain ⟨ih1, ih2, ih3, ih4⟩ := ih
    have hrec : reconstructPath
        (Node.mk q.x q.y (par.g + 1) (manhattan q endP)
          ((par.g + 1) + manhattan q endP) (some par)) =
        reconstructPath par ++ [⟨q.x, q.y⟩] := rfl
    have hne : reconstructPath par ≠ [] := by
      intro h
      rw [h] at ih1
      simp at ih1
    refine ⟨?_, ?_, ?_, ?_⟩
    · rw [hrec, List.head?_append]
      rw [ih1]
      rfl
    · rw [hrec, List.getLast?_concat]
      simp
    · rw [hrec]
      refine List.chain'_append.mpr ⟨ih3, List.chain'_singleton _, ?_⟩
      intro x hx y hy
      rw [ih2] at hx
      simp at hx hy
      subst hx
      subst hy
      exact hstep
    · rw [hrec]
      simp [ih4]

/-- A 4-neighbor candidate is at Manhattan distance 1. -/
theorem manhattan_neighbor {p q : Position} (h : q ∈ neighborsOfPos p) :
    manhattan p q = 1 := by
  simp [neighborsOfPos] at h
  rcases h with rfl | rfl | rfl | rfl <;> simp [manhattan]

theorem manhattan_triangle (a b c : Position) :
    manhattan a c ≤ manhattan a b + manhattan b c := by
  unfold manhattan
  have hx : (a.x - c.x).natAbs ≤ (a.x - b.x).natAbs + (b.x - c.x).natAbs := by
    have := Int.natAbs_add_le (a.x - b.x) (b.x - c.x)
    simpa using this
  have hy : (a.y - c.y).natAbs ≤ (a.y - b.y).natAbs + (b.y - c.y).natAbs := by
    have := Int.natAbs_add_le (a.y - b.y) (b.y - c.y)
    simpa using this
  omega

/-- Along a chain of admissible steps, the Manhattan distance from the head
to the last element is at most the number of steps (the heuristic is
admissible). -/
theorem chain_manhattan_le {floor : Floor} {ag : Option Agent}
    (l : List Position) (a b : Position)
    (hc : List.Chain' (ValidStep floor ag) (a :: l))
    (hl : (a :: l).getLast? = some b) : manhattan a b ≤ l.length := by
  induction l generalizing a with
  | nil =>
    simp at hl
    subst hl
    simp [manhattan]
  | cons x l' ih =>
    rw [List.chain'_cons] at hc
    have hstep : ValidStep floor ag a x := hc.1
    have hlast : (x :: l').getLast? = some b := by
      simpa using hl
    have hx := ih x hc.2 hlast
    have htri := manhattan_triangle a x b
    have h1 : manhattan a x = 1 := manhattan_neighbor hstep.1
    simp only [List.length_cons]
    omega

theorem frontier_walk {floor : Floor} {ag : Option Agent}
    {start endP : Position} {openSet : List Node}
    {closed : List (Int × Int)}
    (inv : AStarInv floor ag start endP openSet closed) :
    ∀ (rest pre : List Position) (p : Position),
      List.Chain' (ValidStep floor ag) (pre ++ p :: rest) →
      (pre ++ p :: rest).head? = some start →
      (∀ r ∈ pre, (r.x, r.y) ∈ closed) →
      ((p.x, p.y) ∈ closed ∨
        ∃ n ∈ openSet, n.pos = p ∧ n.g ≤ pre.length) →
      (∀ r ∈ pre ++ p :: rest, (r.x, r.y) ∈ closed) ∨
        ∃ n ∈ openSet, ∃ s1 s2,
          pre ++ p :: rest = s1 ++ n.pos :: s2 ∧ n.g ≤ s1.length := by
  intro rest
  induction rest with
  | nil =>
    intro pre p hchain hhead hpre htri
    rcases htri with hcl | ⟨n, hn, hpos, hg⟩
    · left
      intro r hr
      rcases List.mem_append.mp hr with h | h
      · exact hpre r h
      · simp at h
        subst h
        exact hcl
    · right
      refine ⟨n, hn, pre, [], ?_, hg⟩
      rw [hpos]
  | cons q rest ih =>
    intro pre p hchain hhead hpre htri
    rcases htri with hcl | hopen
    case inr =>
      obtain ⟨n, hn, hpos, hg⟩ := hopen
      right
      refine ⟨n, hn, pre, q :: rest, ?_, hg⟩
      rw [hpos]
    · have hchpqr : List.Chain' (ValidStep floor ag) (p :: q :: rest) :=
        (List.chain'_append.mp hchain).2.1
      have hstep : ValidStep floor ag p q := (List.chain'_cons.mp hchpqr).1
      have hassoc : pre ++ p :: q :: rest = (pre ++ [p]) ++ q :: rest := by
        simp
      have hchain' :
          List.Chain' (ValidStep floor ag) ((pre ++ [p]) ++ q :: rest) := by
        rw [← hassoc]
        exact hchain
      have hhead' : ((pre ++ [p]) ++ q :: rest).head? = some start := by
        rw [← hassoc]
        exact hhead
      have hpre' : ∀ r ∈ pre ++ [p], (r.x, r.y) ∈ closed := by
        intro r hr
        rcases List.mem_append.mp hr with h | h
        · exact hpre r h
        · simp at h
          subst h
          exact hcl
      have hstep' : ValidStep floor ag (⟨(p.x, p.y).1, (p.x, p.y).2⟩ : Position) q :=
        hstep
      have hcs := inv.closedStep (p.x, p.y) hcl q hstep'
      have hprefix : List.Chain' (ValidStep floor ag) (pre ++ [p]) := by
        rcases List.chain'_append.mp hchain with ⟨h1, _h2, h3⟩
        refine List.chain'_append.mpr ⟨h1, List.chain'_singleton _, ?_⟩
        intro x hx y hy
        simp at hy
        subst hy
        exact h3 x hx p rfl
      have hheadpre : (pre ++ [p]).head? = some start := by
        rw [List.head?_append] at hhead ⊢
        cases hd : pre.head? with
        | none =>
          rw [hd] at hhead
          simp at hhead ⊢
          exact hhead
        | some a =>
          rw [hd] at hhead
          simpa using hhead
      rcases hcs with hqcl | ⟨n, hn, hpos, hbound⟩
      · have hres := ih (pre ++ [p]) q hchain' hhead' hpre' (Or.inl hqcl)
        rcases hres with hall | ⟨n, hn, s1, s2, heq, hg⟩
        · left
          intro r hr
          apply hall
          rw [← hassoc]
          exact hr
        · right
          refine ⟨n, hn, s1, s2, ?_, hg⟩
          rw [hassoc, heq]
      · have hpath : PathOk floor ag start (pre ++ [p]) := ⟨hheadpre, hprefix⟩
        have hglast : (pre ++ [p]).getLast? = some p := List.getLast?_concat _
        have hgn : n.g ≤ (pre ++ [p]).length := by
          refine hbound _ hpath ?_
          rw [hglast]
        have hgn' : n.g ≤ pre.length + 1 := by
          simpa using hgn
        have hres := ih (pre ++ [p]) q hchain' hhead' hpre'
          (Or.inr ⟨n, hn, hpos, by simpa using hgn'⟩)
        rcases hres with hall | ⟨m, hm, s1, s2, heq, hg⟩
        · left
          intro r hr
          apply hall
          rw [← hassoc]
          exact hr
        · right
          refine ⟨m, hm, s1, s2, ?_, hg⟩
          rw [hassoc, heq]

theorem frontier {floor : Floor} {ag : Option Agent}
    {start endP : Position} {openSet : List Node}
    {closed : List (Int × Int)}
    (inv : AStarInv floor ag start endP openSet closed)
    (pth : List Position) (q : Position)
    (hp : PathOk floor ag start pth) (hlast : pth.getLast? = some q)
    (hq : (q.x, q.y) ∉ closed) :
    ∃ n ∈ openSet, ∃ s1 s2,
      pth = s1 ++ n.pos :: s2 ∧ n.g ≤ s1.length := by
  obtain ⟨hhead, hchain⟩ := hp
  cases pth with
  | nil => simp at hhead
  | cons p rest =>
    have hps : p = start := by simpa using hhead
    have htri : (p.x, p.y) ∈ closed ∨
        ∃ n ∈ openSet, n.pos = p ∧ n.g ≤ ([] : List Position).length := by
      rcases inv.startMem with h | ⟨n, hn, hpos, hg⟩
      · left
        rw [hps]
        exact h
      · right
        exact ⟨n, hn, by rw [hpos, hps], by simp [hg]⟩
    have hres := frontier_walk inv rest [] p (by simpa using hchain)
      (by simpa using hhead) (by simp) htri
    rcases hres with hall | hres
    · exact absurd (hall q (List.mem_of_mem_getLast? hlast)) hq
    · simpa using hres

theorem popped_g_le {floor : Floor} {ag : Option Agent}
    {start endP : Position} {openSet : List Node}
    {closed : List (Int × Int)}
    (inv : AStarInv floor ag start endP openSet closed)
    (c : Node) (hc : c ∈ openSet)
    (hmin : ∀ n ∈ openSet, c.f ≤ n.f) :
    ∀ pth, PathOk floor ag start pth → pth.getLast? = some c.pos →
      c.g + 1 ≤ pth.length := by
  intro pth hp hlast
  have hnotcl : (c.pos.x, c.pos.y) ∉ closed := inv.disj c hc
  obtain ⟨n, hn, s1, s2, heq, hg⟩ := frontier inv pth c.pos hp hlast hnotcl
  obtain ⟨hhead, hchain⟩ := hp
  rw [heq] at hchain hlast
  have hchain2 : List.Chain' (ValidStep floor ag) (n.pos :: s2) :=
    (List.chain'_append.mp hchain).2.1
  have hlast2 : (n.pos :: s2).getLast? = some c.pos := by
    rw [List.getLast?_append] at hlast
    rw [List.getLast?_eq_getLast (n.pos :: s2) (by simp)] at hlast ⊢
    simpa using hlast
  have hman : manhattan n.pos c.pos ≤ s2.length :=
    chain_manhattan_le s2 n.pos c.pos hchain2 hlast2
  have hf := hmin n hn
  have hfc : c.f = c.g + manhattan c.pos endP := (inv.nodesOk c hc).f_eq
  have hfn : n.f = n.g + manhattan n.pos endP := (inv.nodesOk n hn).f_eq
  have htri := manhattan_triangle n.pos c.pos endP
  have hlen : pth.length = s1.length + s2.length + 1 := by
    rw [heq]
    simp only [List.length_append, List.length_cons]
    omega
  omega

theorem updateOpenNode_none {g f : Nat} {cur : Node} {nx ny : Int}
    {l : List Node} (h : updateOpenNode g f cur nx ny l = none) :
    ∀ n ∈ l, ¬(n.x = nx ∧ n.y = ny) := by
  induction l with
  | nil => simp
  | cons n rest ih =>
    unfold updateOpenNode at h
    by_cases hkey : n.x = nx ∧ n.y = ny
    · rw [if_pos hkey] at h
      exact absurd h (by simp)
    · rw [if_neg hkey] at h
      intro m hm
      rcases List.mem_cons.mp hm with rfl | hm'
      · exact hkey
      · exact ih (Option.map_eq_none'.mp h) m hm'

theorem updateOpenNode_keys {g f : Nat} {cur : Node} {nx ny : Int}
    {l l' : List Node} (h : updateOpenNode g f cur nx ny l = some l') :
    l'.map nodeKey = l.map nodeKey := by
  induction l generalizing l' with
  | nil => simp [updateOpenNode] at h
  | cons n rest ih =>
    unfold updateOpenNode at h
    by_cases hkey : n.x = nx ∧ n.y = ny
    · rw [if_pos hkey] at h
      have hl' := (Option.some.inj h).symm
      subst hl'
      simp only [List.map_cons]
      congr 1
      by_cases hg : g < n.g
      · rw [if_pos hg]
        simp [nodeKey, hkey.1, hkey.2]
      · rw [if_neg hg]
    · rw [if_neg hkey] at h
      obtain ⟨rest', hu, hl⟩ := Option.map_eq_some'.mp h
      subst hl
      simp [List.map_cons, ih hu]

theorem updateOpenNode_mem {g f : Nat} {cur : Node} {nx ny : Int}
    {l l' : List Node} (h : updateOpenNode g f cur nx ny l = some l') :
    ∀ n' ∈ l', n' ∈ l ∨
      ∃ n ∈ l, (n.x = nx ∧ n.y = ny) ∧ g < n.g ∧
        n' = Node.mk nx ny g n.h f (some cur) := by
  induction l generalizing l' with
  | nil => simp [updateOpenNode] at h
  | cons n rest ih =>
    unfold updateOpenNode at h
    by_cases hkey : n.x = nx ∧ n.y = ny
    · rw [if_pos hkey] at h
      have hl' := (Option.some.inj h).symm
      subst hl'
      intro n' hn'
      rcases List.mem_cons.mp hn' with rfl | hm'
      · by_cases hg : g < n.g
        · rw [if_pos hg]
          exact Or.inr ⟨n, List.mem_cons_self n rest, hkey, hg, rfl⟩
        · rw [if_neg hg]
          exact Or.inl (List.mem_cons_self n rest)
      · exact Or.inl (List.mem_cons_of_mem n hm')
    · rw [if_neg hkey] at h
      obtain ⟨rest', hu, hl⟩ := Option.map_eq_some'.mp h
      subst hl
      intro n' hn'
      rcases List.mem_cons.mp hn' with rfl | hm'
      · exact Or.inl (List.mem_cons_self n' rest)
      · rcases ih hu n' hm' with hin | ⟨m, hm, hk, hg, he⟩
        · exact Or.inl (List.mem_cons_of_mem n hin)
        · exact Or.inr ⟨m, List.mem_cons_of_mem n hm, hk, hg, he⟩

theorem updateOpenNode_entry {g f : Nat} {cur : Node} {nx ny : Int}
    {l l' : List Node} (h : updateOpenNode g f cur nx ny l = some l')
    {q : Position} {B : Nat} (hex : ∃ n ∈ l, n.pos = q ∧ n.g ≤ B) :
    ∃ n' ∈ l', n'.pos = q ∧ n'.g ≤ B := by
  induction l generalizing l' with
  | nil => simp [updateOpenNode] at h
  | cons n rest ih =>
    unfold updateOpenNode at h
    by_cases hkey : n.x = nx ∧ n.y = ny
    · rw [if_pos hkey] at h
      have hl' := (Option.some.inj h).symm
      subst hl'
      obtain ⟨m, hm, hpos, hB⟩ := hex
      rcases List.mem_cons.mp hm with rfl | hm'
      · by_cases hg : g < m.g
        · rw [if_pos hg]
          refine ⟨Node.mk nx ny g m.h f (some cur),
            List.mem_cons_self _ _, ?_, ?_⟩
          · rw [← hpos]
            simp [Node.pos, hkey.1, hkey.2]
          · simp
            omega
        · rw [if_neg hg]
          exact ⟨m, List.mem_cons_self _ _, hpos, hB⟩
      · exact ⟨m, List.mem_cons_of_mem _ hm', hpos, hB⟩
    · rw [if_neg hkey] at h
      obtain ⟨rest', hu, hl⟩ := Option.map_eq_some'.mp h
      subst hl
      obtain ⟨m, hm, hpos, hB⟩ := hex
      rcases List.mem_cons.mp hm with rfl | hm'
      · exact ⟨m, List.mem_cons_self _ _, hpos, hB⟩
      · obtain ⟨n', hn', hq, hB'⟩ := ih hu ⟨m, hm', hpos, hB⟩
        exact ⟨n', List.mem_cons_of_mem _ hn', hq, hB'⟩

theorem updateOpenNode_newEntry {g f : Nat} {cur : Node} {nx ny : Int}
    {l l' : List Node} (h : updateOpenNode g f cur nx ny l = some l') :
    ∃ n' ∈ l', n'.pos = (⟨nx, ny⟩ : Position) ∧ n'.g ≤ g := by
  induction l generalizing l' with
  | nil => simp [updateOpenNode] at h
  | cons n rest ih =>
    unfold updateOpenNode at h
    by_cases hkey : n.x = nx ∧ n.y = ny
    · rw [if_pos hkey] at h
      have hl' := (Option.some.inj h).symm
      subst hl'
      by_cases hg : g < n.g
      · rw [if_pos hg]
        exact ⟨Node.mk nx ny g n.h f (some cur), List.mem_cons_self _ _,
          by simp [Node.pos], by simp⟩
      · rw [if_neg hg]
        refine ⟨n, List.mem_cons_self _ _, ?_, by omega⟩
        simp [Node.pos, hkey.1, hkey.2]
    · rw [if_neg hkey] at h
      obtain ⟨rest', hu, hl⟩ := Option.map_eq_some'.mp h
      subst hl
      obtain ⟨n', hn', hq, hg'⟩ := ih hu
      exact ⟨n', List.mem_cons_of_mem _ hn', hq, hg'⟩

theorem cellWalkableAt_iff {floor : Floor} {ag : Option Agent}
    {p : Position} :
    cellWalkableAt floor ag p = true ↔
      ∃ c, cellAt floor.grid p = some c ∧ isCellWalkable c ag = true := by
  unfold cellWalkableAt
  cases h : cellAt floor.grid p <;> simp

/-- Case analysis of one neighbor relaxation: the open set is unchanged
(neighbor rejected), or the neighbor was accepted and either pushed (no
existing entry) or merged into the existing entry. -/
theorem relax_cases (floor : Floor) (ag : Option Agent) (endP : Position)
    (closed' : List (Int × Int)) (cur : Node) (os : List Node)
    (npos : Position) :
    relaxNeighbor (gridRows floor) (gridCols floor) floor.grid ag endP
        closed' cur os npos = os ∨
      (traversableCell floor ag npos ∧ (npos.x, npos.y) ∉ closed' ∧
        ((updateOpenNode (cur.g + 1) ((cur.g + 1) + manhattan npos endP) cur
            npos.x npos.y os = none ∧
          relaxNeighbor (gridRows floor) (gridCols floor) floor.grid ag endP
              closed' cur os npos =
            os ++ [Node.mk npos.x npos.y (cur.g + 1) (manhattan npos endP)
              ((cur.g + 1) + manhattan npos endP) (some cur)]) ∨
        (∃ l', updateOpenNode (cur.g + 1) ((cur.g + 1) + manhattan npos endP)
            cur npos.x npos.y os = some l' ∧
          relaxNeighbor (gridRows floor) (gridCols floor) floor.grid ag endP
              closed' cur os npos = l'))) := by
  unfold relaxNeighbor
  by_cases h1 : isValidPosition npos (gridRows floor) (gridCols floor) = false
  · left
    rw [if_pos h1]
  · rw [if_neg h1]
    by_cases h2 : (npos.x, npos.y) ∈ closed'
    · left
      rw [if_pos h2]
    · rw [if_neg h2]
      cases hcell : cellAt floor.grid npos with
      | none =>
        dsimp only
        exact Or.inl rfl
      | some cell =>
        dsimp only
        by_cases h3 : isCellWalkable cell ag = false
        · rw [if_pos h3]
          exact Or.inl rfl
        · rw [if_neg h3]
          have htrav : traversableCell floor ag npos := by
            constructor
            · revert h1
              cases isValidPosition npos (gridRows floor) (gridCols floor) <;>
                simp
            · rw [cellWalkableAt_iff]
              refine ⟨cell, hcell, ?_⟩
              revert h3
              cases isCellWalkable cell ag <;> simp
          right
          refine ⟨htrav, h2, ?_⟩
          cases hu : updateOpenNode (cur.g + 1)
              ((cur.g + 1) + manhattan npos endP) cur npos.x npos.y os with
          | none =>
            left
            exact ⟨rfl, rfl⟩
          | some l' =>
            right
            exact ⟨l', rfl, rfl⟩

/-- When the neighbor is traversable and not closed, the relaxation accepts
it (the push-or-merge branch is taken). -/
theorem relax_accept (floor : Floor) (ag : Option Agent) (endP : Position)
    (closed' : List (Int × Int)) (cur : Node) (os : List Node)
    (npos : Position) (htrav : traversableCell floor ag npos)
    (hcl : (npos.x, npos.y) ∉ closed') :
    (updateOpenNode (cur.g + 1) ((cur.g + 1) + manhattan npos endP) cur
        npos.x npos.y os = none ∧
      relaxNeighbor (gridRows floor) (gridCols floor) floor.grid ag endP
          closed' cur os npos =
        os ++ [Node.mk npos.x npos.y (cur.g + 1) (manhattan npos endP)
          ((cur.g + 1) + manhattan npos endP) (some cur)]) ∨
    (∃ l', updateOpenNode (cur.g + 1) ((cur.g + 1) + manhattan npos endP) cur
        npos.x npos.y os = some l' ∧
      relaxNeighbor (gridRows floor) (gridCols floor) floor.grid ag endP
          closed' cur os npos = l') := by
  obtain ⟨hvalid, hwalk⟩ := htrav
  obtain ⟨cell, hcell, hcw⟩ := cellWalkableAt_iff.mp hwalk
  unfold relaxNeighbor
  rw [if_neg (by rw [hvalid]; simp), if_neg hcl, hcell]
  dsimp only
  rw [if_neg (by rw [hcw]; simp)]
  cases hu : updateOpenNode (cur.g + 1)
      ((cur.g + 1) + manhattan npos endP) cur npos.x npos.y os with
  | none =>
    left
    exact ⟨rfl, rfl⟩
  | some l' =>
    right
    exact ⟨l', rfl, rfl⟩

theorem position_eta (p : Position) : (⟨p.x, p.y⟩ : Position) = p := rfl

theorem relax_nodesOk {floor : Floor} {ag : Option Agent}
    {start endP : Position} {closed' : List (Int × Int)} {cur : Node}
    {os : List Node} {npos : Position}
    (hcur : NodeOk floor ag start endP cur)
    (hnb : npos ∈ neighborsOfPos cur.pos)
    (hos : ∀ n ∈ os, NodeOk floor ag start endP n) :
    ∀ n' ∈ relaxNeighbor (gridRows floor) (gridCols floor) floor.grid ag endP
      closed' cur os npos, NodeOk floor ag start endP n' := by
  rcases relax_cases floor ag endP closed' cur os npos with heq |
    ⟨htrav, hcl, hbr⟩
  · rw [heq]
    exact hos
  · have hstep : ValidStep floor ag cur.pos npos := ⟨hnb, htrav⟩
    rcases hbr with ⟨hnone, heq⟩ | ⟨l', hsome, heq⟩
    · rw [heq]
      intro n' hn'
      rcases List.mem_append.mp hn' with hin | hnew
      · exact hos n' hin
      · simp at hnew
        subst hnew
        exact NodeOk.step cur npos hcur hstep
    · rw [heq]
      intro n' hn'
      rcases updateOpenNode_mem hsome n' hn' with hin | ⟨n, hnos, hk, _hg, he⟩
      · exact hos n' hin
      · subst he
        have hnpos : n.pos = npos := by
          have : n.pos = ⟨n.x, n.y⟩ := rfl
          rw [this, hk.1, hk.2, position_eta]
        have hh : n.h = manhattan npos endP := by
          rw [(hos n hnos).h_eq, hnpos]
        rw [hh]
        exact NodeOk.step cur npos hcur hstep

theorem relax_disj {floor : Floor} {ag : Option Agent} {endP : Position}
    {closed' : List (Int × Int)} {cur : Node} {os : List Node}
    {npos : Position}
    (hos : ∀ n ∈ os, nodeKey n ∉ closed') :
    ∀ n' ∈ relaxNeighbor (gridRows floor) (gridCols floor) floor.grid ag endP
      closed' cur os npos, nodeKey n' ∉ closed' := by
  rcases relax_cases floor ag endP closed' cur os npos with heq |
    ⟨_htrav, hcl, hbr⟩
  · rw [heq]
    exact hos
  · rcases hbr with ⟨hnone, heq⟩ | ⟨l', hsome, heq⟩
    · rw [heq]
      intro n' hn'
      rcases List.mem_append.mp hn' with hin | hnew
      · exact hos n' hin
      · simp at hnew
        subst hnew
        simpa using hcl
    · rw [heq]
      intro n' hn'
      rcases updateOpenNode_mem hsome n' hn' with hin | ⟨n, hnos, hk, _hg, he⟩
      · exact hos n' hin
      · subst he
        simpa using hcl

theorem relax_uniq {floor : Floor} {ag : Option Agent} {endP : Position}
    {closed' : List (Int × Int)} {cur : Node} {os : List Node}
    {npos : Position}
    (hu : (os.map nodeKey).Nodup) :
    ((relaxNeighbor (gridRows floor) (gridCols floor) floor.grid ag endP
      closed' cur os npos).map nodeKey).Nodup := by
  rcases relax_cases floor ag endP closed' cur os npos with heq |
    ⟨_htrav, _hcl, hbr⟩
  · rw [heq]
    exact hu
  · rcases hbr with ⟨hnone, heq⟩ | ⟨l', hsome, heq⟩
    · rw [heq]
      have hmiss : (npos.x, npos.y) ∉ os.map nodeKey := by
        intro hmem
        obtain ⟨n, hn, hkey⟩ := List.mem_map.mp hmem
        exact updateOpenNode_none hnone n hn
          ⟨congrArg Prod.fst hkey, congrArg Prod.snd hkey⟩
      simp only [List.map_append, List.map_cons, List.map_nil, nodeKey_mk]
      rw [List.nodup_append]
      refine ⟨hu, List.nodup_singleton _, ?_⟩
      intro a ha hb
      simp at hb
      subst hb
      exact hmiss ha
    · rw [heq, updateOpenNode_keys hsome]
      exact hu

theorem relax_entry {floor : Floor} {ag : Option Agent} {endP : Position}
    {closed' : List (Int × Int)} {cur : Node} {os : List Node}
    {npos : Position} {q : Position} {B : Nat}
    (hex : ∃ n ∈ os, n.pos = q ∧ n.g ≤ B) :
    ∃ n' ∈ relaxNeighbor (gridRows floor) (gridCols floor) floor.grid ag endP
      closed' cur os npos, n'.pos = q ∧ n'.g ≤ B := by
  rcases relax_cases floor ag endP closed' cur os npos with heq |
    ⟨_htrav, _hcl, hbr⟩
  · rw [heq]
    exact hex
  · rcases hbr with ⟨hnone, heq⟩ | ⟨l', hsome, heq⟩
    · rw [heq]
      obtain ⟨n, hn, hpos, hB⟩ := hex
      exact ⟨n, List.mem_append_left _ hn, hpos, hB⟩
    · rw [heq]
      exact updateOpenNode_entry hsome hex

theorem relax_newEntry {floor : Floor} {ag : Option Agent} {endP : Position}
    {closed' : List (Int × Int)} {cur : Node} {os : List Node}
    {npos : Position}
    (htrav : traversableCell floor ag npos)
    (hcl : (npos.x, npos.y) ∉ closed') :
    ∃ n' ∈ relaxNeighbor (gridRows floor) (gridCols floor) floor.grid ag endP
      closed' cur os npos, n'.pos = npos ∧ n'.g ≤ cur.g + 1 := by
  rcases relax_accept floor ag endP closed' cur os npos htrav hcl with
    ⟨hnone, heq⟩ | ⟨l', hsome, heq⟩
  · rw [heq]
    refine ⟨Node.mk npos.x npos.y (cur.g + 1) (manhattan npos endP)
      ((cur.g + 1) + manhattan npos endP) (some cur),
      List.mem_append_right _ (by simp), ?_, by simp⟩
    simp [position_eta]
  · rw [heq]
    obtain ⟨n', hn', hpos, hg⟩ := updateOpenNode_newEntry hsome
    exact ⟨n', hn', by rw [hpos, position_eta], hg⟩

theorem foldRelax_nodesOk {floor : Floor} {ag : Option Agent}
    {start endP : Position} {closed' : List (Int × Int)} {cur : Node}
    (hcur : NodeOk floor ag start endP cur) :
    ∀ (nl : List Position) (os : List Node),
      (∀ x ∈ nl, x ∈ neighborsOfPos cur.pos) →
      (∀ n ∈ os, NodeOk floor ag start endP n) →
      ∀ n' ∈ nl.foldl (relaxNeighbor (gridRows floor) (gridCols floor)
        floor.grid ag endP closed' cur) os,
        NodeOk floor ag start endP n' := by
  intro nl
  induction nl with
  | nil => intro os _ hos; simpa using hos
  | cons x nl ih =>
    intro os hnl hos
    rw [List.foldl_cons]
    exact ih _ (fun y hy => hnl y (List.mem_cons_of_mem x hy))
      (relax_nodesOk hcur (hnl x (List.mem_cons_self x nl)) hos)

theorem foldRelax_disj {floor : Floor} {ag : Option Agent} {endP : Position}
    {closed' : List (Int × Int)} {cur : Node} :
    ∀ (nl : List Position) (os : List Node),
      (∀ n ∈ os, nodeKey n ∉ closed') →
      ∀ n' ∈ nl.foldl (relaxNeighbor (gridRows floor) (gridCols floor)
        floor.grid ag endP closed' cur) os, nodeKey n' ∉ closed' := by
  intro nl
  induction nl with
  | nil => intro os hos; simpa using hos
  | cons x nl ih =>
    intro os hos
    rw [List.foldl_cons]
    exact ih _ (relax_disj hos)

theorem foldRelax_uniq {floor : Floor} {ag : Option Agent} {endP : Position}
    {closed' : List (Int × Int)} {cur : Node} :
    ∀ (nl : List Position) (os : List Node),
      (os.map nodeKey).Nodup →
      ((nl.foldl (relaxNeighbor (gridRows floor) (gridCols floor)
        floor.grid ag endP closed' cur) os).map nodeKey).Nodup := by
  intro nl
  induction nl with
  | nil => intro os hos; simpa using hos
  | cons x nl ih =>
    intro os hos
    rw [List.foldl_cons]
    exact ih _ (relax_uniq hos)

theorem foldRelax_entry {floor : Floor} {ag : Option Agent} {endP : Position}
    {closed' : List (Int × Int)} {cur : Node} {q : Position} {B : Nat} :
    ∀ (nl : List Position) (os : List Node),
      (∃ n ∈ os, n.pos = q ∧ n.g ≤ B) →
      ∃ n' ∈ nl.foldl (relaxNeighbor (gridRows floor) (gridCols floor)
        floor.grid ag endP closed' cur) os, n'.pos = q ∧ n'.g ≤ B := by
  intro nl
  induction nl with
  | nil => intro os hos; simpa using hos
  | cons x nl ih =>
    intro os hos
    rw [List.foldl_cons]
    exact ih _ (relax_entry hos)

theorem foldRelax_newEntry {floor : Floor} {ag : Option Agent}
    {endP : Position} {closed' : List (Int × Int)} {cur : Node}
    {q : Position}
    (htrav : traversableCell floor ag q) (hcl : (q.x, q.y) ∉ closed') :
    ∀ (nl : List Position) (os : List Node), q ∈ nl →
      ∃ n' ∈ nl.foldl (relaxNeighbor (gridRows floor) (gridCols floor)
        floor.grid ag endP closed' cur) os, n'.pos = q ∧ n'.g ≤ cur.g + 1 := by
  intro nl
  induction nl with
  | nil => intro os hq; simp at hq
  | cons x nl ih =>
    intro os hq
    rw [List.foldl_cons]
    rcases List.mem_cons.mp hq with rfl | hq'
    · exact foldRelax_entry nl _ (relax_newEntry htrav hcl)
    · exact ih _ hq'

/-- Facts about the popped node: membership, minimality of `f` (head of the
stable sort), the tail's membership, and key distinctness. -/
theorem pop_facts {openSet : List Node} {current : Node} {rest : List Node}
    (hu : (openSet.map nodeKey).Nodup)
    (hms : List.insertionSort openLe openSet = current :: rest) :
    current ∈ openSet ∧ (∀ n ∈ openSet, current.f ≤ n.f) ∧
      (∀ n ∈ rest, n ∈ openSet) ∧
      ((current :: rest).map nodeKey).Nodup := by
  have hperm : (current :: rest).Perm openSet := by
    rw [← hms]
    exact List.perm_insertionSort openLe openSet
  have hsorted := List.sorted_insertionSort openLe openSet
  rw [hms] at hsorted
  have hminrest : ∀ n ∈ rest, openLe current n :=
    (List.pairwise_cons.mp hsorted).1
  refine ⟨hperm.mem_iff.mp (List.mem_cons_self _ _), ?_, ?_, ?_⟩
  · intro n hn
    rcases List.mem_cons.mp (hperm.mem_iff.mpr hn) with rfl | hr
    · exact le_refl _
    · exact hminrest n hr
  · intro n hn
    exact hperm.mem_iff.mp (List.mem_cons_of_mem _ hn)
  · exact (hperm.map nodeKey).nodup_iff.mpr hu

/-- One non-goal iteration of the A* loop preserves the invariant. -/
theorem inv_step {floor : Floor} {ag : Option Agent}
    {start endP : Position} {openSet : List Node}
    {closed : List (Int × Int)} {current : Node} {rest : List Node}
    (inv : AStarInv floor ag start endP openSet closed)
    (hms : List.insertionSort openLe openSet = current :: rest)
    (hng : ¬(current.x = endP.x ∧ current.y = endP.y)) :
    AStarInv floor ag start endP
      ((neighborsOfPos current.pos).foldl
        (relaxNeighbor (gridRows floor) (gridCols floor) floor.grid ag endP
          ((current.x, current.y) :: closed) current) rest)
      ((current.x, current.y) :: closed) := by
  obtain ⟨hcur_mem, hmin, hrest_sub, hkeys⟩ := pop_facts inv.uniq hms
  have hperm : (current :: rest).Perm openSet := by
    rw [← hms]
    exact List.perm_insertionSort openLe openSet
  have hcur_ok : NodeOk floor ag start endP current := inv.nodesOk _ hcur_mem
  have hcur_notin_rest : nodeKey current ∉ rest.map nodeKey :=
    (List.nodup_cons.mp (by simpa using hkeys)).1
  have hrest_nodup : (rest.map nodeKey).Nodup :=
    (List.nodup_cons.mp (by simpa using hkeys)).2
  have hdisj' : ∀ n ∈ rest, nodeKey n ∉ (current.x, current.y) :: closed := by
    intro n hn hmem
    rcases List.mem_cons.mp hmem with heq | hcl
    · apply hcur_notin_rest
      have heq' : nodeKey n = nodeKey current := heq
      rw [← heq']
      exact List.mem_map_of_mem nodeKey hn
    · exact inv.disj n (hrest_sub n hn) hcl
  have hpop : ∀ pth, PathOk floor ag start pth →
      pth.getLast? = some current.pos → current.g + 1 ≤ pth.length :=
    popped_g_le inv current hcur_mem hmin
  refine ⟨?_, ?_, ?_, ?_, ?_, ?_⟩
  · exact foldRelax_nodesOk hcur_ok _ rest (fun x hx => hx)
      (fun n hn => inv.nodesOk n (hrest_sub n hn))
  · exact foldRelax_uniq _ rest hrest_nodup
  · exact foldRelax_disj _ rest hdisj'
  · intro c hc q hstep
    rcases List.mem_cons.mp hc with rfl | hcl
    · -- the newly closed position is `current.pos`
      have hstep' : ValidStep floor ag current.pos q := hstep
      by_cases hqcl : (q.x, q.y) ∈ (current.x, current.y) :: closed
      · exact Or.inl hqcl
      · right
        obtain ⟨n', hn', hpos, hgle⟩ := foldRelax_newEntry hstep'.2 hqcl
          (neighborsOfPos current.pos) rest hstep'.1
        refine ⟨n', hn', hpos, ?_⟩
        intro pth hp hl
        have := hpop pth hp hl
        omega
    · rcases inv.closedStep c hcl q hstep with hq | ⟨n, hn, hpos, hbound⟩
      · exact Or.inl (List.mem_cons_of_mem _ hq)
      · rcases List.mem_cons.mp (hperm.mem_iff.mpr hn) with h | h
        · -- n is the popped node: its position is now closed
          left
          subst h
          have : (q.x, q.y) = nodeKey n := by
            rw [← hpos]
            rfl
          rw [this]
          exact List.mem_cons_self _ _
        · right
          obtain ⟨n', hn', hq, hB⟩ := foldRelax_entry
            (neighborsOfPos current.pos) rest ⟨n, h, hpos, le_refl n.g⟩
          refine ⟨n', hn', hq, ?_⟩
          intro pth hp hl
          exact le_trans hB (hbound pth hp hl)
  · rcases inv.startMem with hcl | ⟨n, hn, hpos, hg0⟩
    · exact Or.inl (List.mem_cons_of_mem _ hcl)
    · rcases List.mem_cons.mp (hperm.mem_iff.mpr hn) with h | h
      · left
        subst h
        have : (start.x, start.y) = nodeKey n := by
          rw [← hpos]
          rfl
        rw [this]
        exact List.mem_cons_self _ _
      · right
        obtain ⟨n', hn', hq, hB⟩ := foldRelax_entry
          (neighborsOfPos current.pos) rest ⟨n, h, hpos, le_of_eq hg0⟩
        exact ⟨n', hn', hq, Nat.le_zero.mp hB⟩
  · intro hmem
    rcases List.mem_cons.mp hmem with heq | hcl
    · exact hng ⟨(congrArg Prod.fst heq).symm, (congrArg Prod.snd heq).symm⟩
    · exact inv.goalOpen hcl

/-- Correctness of the fuelled A* loop: any returned path runs from `start`
to `endP` along admissible steps and is no longer than any search-compatible
path from `start` to `endP`. -/
theorem aStarLoop_correct {floor : Floor} {ag : Option Agent}
    {start endP : Position} :
    ∀ (fuel : Nat) (openSet : List Node) (closed : List (Int × Int))
      (path : List Position),
      AStarInv floor ag start endP openSet closed →
      aStarLoop (gridRows floor) (gridCols floor) floor.grid ag endP fuel
        openSet closed = some path →
      path.head? = some start ∧ path.getLast? = some endP ∧
        List.Chain' (ValidStep floor ag) path ∧
        ∀ pth, PathOk floor ag start pth → pth.getLast? = some endP →
          path.length ≤ pth.length := by
  intro fuel
  induction fuel with
  | zero =>
    intro os closed path _ h
    simp [aStarLoop] at h
  | succ fuel ih =>
    intro os closed path inv h
    unfold aStarLoop at h
    cases hms : List.insertionSort openLe os with
    | nil =>
      rw [hms] at h
      simp at h
    | cons current rest =>
      rw [hms] at h
      dsimp only at h
      by_cases hg : current.x = endP.x ∧ current.y = endP.y
      · rw [if_pos hg] at h
        have hpath : reconstructPath current = path := Option.some.inj h
        obtain ⟨hcur_mem, hmin, _, _⟩ := pop_facts inv.uniq hms
        have hok := inv.nodesOk current hcur_mem
        obtain ⟨h1, h2, h3, h4⟩ := hok.reconstruct
        have hposE : current.pos = endP := by
          have hpe : current.pos = ⟨current.x, current.y⟩ := rfl
          rw [hpe, hg.1, hg.2, position_eta]
        subst hpath
        refine ⟨h1, by rw [h2, hposE], h3, ?_⟩
        intro pth hp hl
        have hb := popped_g_le inv current hcur_mem hmin pth hp
          (by rw [hposE]; exact hl)
        omega
      · rw [if_neg hg] at h
        exact ih _ _ _ (inv_step inv hms hg) h

/-- The invariant holds for the initial search state built by `findPath`. -/
theorem initial_inv (floor : Floor) (ag : Option Agent)
    (start endP : Position) :
    AStarInv floor ag start endP
      [Node.mk start.x start.y 0 (manhattan start endP)
        (0 + manhattan start endP) none] [] := by
  refine ⟨?_, ?_, ?_, ?_, ?_, ?_⟩
  · intro n hn
    rcases List.mem_singleton.mp hn with rfl
    exact NodeOk.root
  · simp
  · intro n _ hcl
    simp at hcl
  · intro c hc
    simp at hc
  · right
    refine ⟨_, List.mem_cons_self _ _, ?_, rfl⟩
    simp [position_eta]
  · simp

/-- Any path returned by `findPath` runs from start to end along admissible
steps and is no longer than any search-compatible path between them. -/
theorem findPath_minimal {floor : Floor} {ag : Option Agent}
    {start endP : Position} {path : List Position}
    (h : findPath floor start endP ag = some path) :
    path.head? = some start ∧ path.getLast? = some endP ∧
      List.Chain' (ValidStep floor ag) path ∧
      ∀ pth, PathOk floor ag start pth → pth.getLast? = some endP →
        path.length ≤ pth.length := by
  unfold findPath at h
  dsimp only at h
  split at h
  · exact absurd h (by simp)
  · split at h
    · split at h
      · exact absurd h (by simp)
      · exact aStarLoop_correct _ _ _ _ (initial_inv floor ag start endP) h
    · exact absurd h (by simp)

/-- A 4-adjacent chain whose cells are all traversable is a chain of
admissible search steps. -/
theorem chain_upgrade {floor : Floor} {ag : Option Agent} :
    ∀ seq : List Position,
      List.Chain' (fun p q => q ∈ neighborsOfPos p) seq →
      (∀ p ∈ seq, traversableCell floor ag p) →
      List.Chain' (ValidStep floor ag) seq := by
  intro seq
  induction seq with
  | nil => intro _ _; simp
  | cons a l ih =>
    intro hchain hall
    cases l with
    | nil => simp
    | cons b l' =>
      rw [List.chain'_cons] at hchain ⊢
      refine ⟨⟨hchain.1, hall b (by simp)⟩, ?_⟩
      exact ih hchain.2 fun p hp => hall p (List.mem_cons_of_mem a hp)

/-! ## Priority-engine lemmas and claims -/

theorem starvationDiscount_eq (job : Job) (t S : Rat) :
    starvationDiscount job t S =
      if t - job.createdAt > S ∧ job.priority ≠ .IMMEDIATE then
        min (t - job.createdAt - S) 500
      else 0 := by
  unfold starvationDiscount calculateEffectivePriority
  dsimp only
  split_ifs with h <;> ring

theorem starvationDiscount_nonneg (job : Job) (t S : Rat) :
    0 ≤ starvationDiscount job t S := by
  rw [starvationDiscount_eq]
  split_ifs with h
  · exact le_min (by linarith [h.1]) (by norm_num)
  · exact le_refl 0

theorem starvationDiscount_le_500 (job : Job) (t S : Rat) :
    starvationDiscount job t S ≤ 500 := by
  rw [starvationDiscount_eq]
  split_ifs with h
  · exact min_le_right _ _
  · norm_num

theorem calculateEffectivePriority_eq (job : Job) (t S : Rat) :
    calculateEffectivePriority job t S =
      PRIORITY_ORDER job.priority * 1000 + max 0 (job.deadline - t) -
        starvationDiscount job t S := by
  unfold starvationDiscount
  ring

theorem priority_rank_gap {p q : PriorityTier}
    (h : PRIORITY_ORDER p < PRIORITY_ORDER q) :
    PRIORITY_ORDER p + 1 ≤ PRIORITY_ORDER q := by
  revert h
  cases p <;> cases q <;> norm_num [PRIORITY_ORDER]

/-- C2: for queued jobs `A`, `B` at any current time and starvation
threshold, if `A`'s tier rank is strictly smaller and the deadline terms
`max 0 (deadline − t)` differ by less than 500, then `A`'s effective score
is strictly below `B`'s, regardless of either job's wait time: the ×1000
tier spread dominates the bounded (≤ 500) starvation discount. -/
theorem tier_dominates_near_deadlines (A B : Job) (t S : Rat)
    (_hA : A.state = .QUEUED) (_hB : B.state = .QUEUED)
    (htier : PRIORITY_ORDER A.priority < PRIORITY_ORDER B.priority)
    (hdl : |max 0 (A.deadline - t) - max 0 (B.deadline - t)| < 500) :
    calculateEffectivePriority A t S < calculateEffectivePriority B t S := by
  have hgap := priority_rank_gap htier
  have hdl' := abs_lt.mp hdl
  have h1 := starvationDiscount_nonneg A t S
  have h2 := starvationDiscount_le_500 B t S
  rw [calculateEffectivePriority_eq, calculateEffectivePriority_eq]
  linarith [hdl'.1, hdl'.2]

/-- Witness for C2: an EMERGENCY and an URGENT queued job with deadline
terms 100 and 300 at time 0. -/
theorem tier_dominates_near_deadlines_witness :
    jobEmergency.state = JobState.QUEUED ∧
      jobUrgent.state = JobState.QUEUED ∧
      PRIORITY_ORDER jobEmergency.priority <
        PRIORITY_ORDER jobUrgent.priority ∧
      |max 0 (jobEmergency.deadline - 0) - max 0 (jobUrgent.deadline - 0)| <
        500 ∧
      calculateEffectivePriority jobEmergency 0 300 <
        calculateEffectivePriority jobUrgent 0 300 := by
  have habs : |max 0 (jobEmergency.deadline - 0) -
      max 0 (jobUrgent.deadline - 0)| < 500 := by
    unfold jobEmergency jobUrgent
    rw [abs_lt]
    constructor <;> norm_num
  have htier : PRIORITY_ORDER jobEmergency.priority <
      PRIORITY_ORDER jobUrgent.priority := by
    norm_num [jobEmergency, jobUrgent, PRIORITY_ORDER]
  exact ⟨rfl, rfl, htier, habs,
    tier_dominates_near_deadlines jobEmergency jobUrgent 0 300 rfl rfl
      htier habs⟩

/-- C6: for a non-IMMEDIATE job, the starvation discount is 0 at wait time
exactly `S`, exactly 200 at `S + 200`, and exactly 500 (the cap) at
`S + 600`; an IMMEDIATE job gets no discount at any wait time. -/
theorem starvation_discount_profile (job : Job) (t S : Rat) :
    (job.priority ≠ .IMMEDIATE →
      ((t - job.createdAt = S → starvationDiscount job t S = 0) ∧
        (t - job.createdAt = S + 200 → starvationDiscount job t S = 200) ∧
        (t - job.createdAt = S + 600 → starvationDiscount job t S = 500))) ∧
    (job.priority = .IMMEDIATE → starvationDiscount job t S = 0) := by
  constructor
  · intro hni
    refine ⟨?_, ?_, ?_⟩
    · intro hw
      rw [starvationDiscount_eq, if_neg]
      intro hcon
      rw [hw] at hcon
      exact lt_irrefl S hcon.1
    · intro hw
      rw [starvationDiscount_eq, if_pos ⟨by rw [hw]; linarith, hni⟩, hw]
      have h200 : S + 200 - S = (200 : Rat) := by ring
      rw [h200]
      exact min_eq_left (by norm_num)
    · intro hw
      rw [starvationDiscount_eq, if_pos ⟨by rw [hw]; linarith, hni⟩, hw]
      have h600 : S + 600 - S = (600 : Rat) := by ring
      rw [h600]
      exact min_eq_right (by norm_num)
  · intro him
    rw [starvationDiscount_eq, if_neg]
    intro hcon
    exact hcon.2 him

/-- Witness for C6: a NON_URGENT job created at time 0, observed at
t = 500 with threshold 300 (wait = S + 200), has discount exactly 200. -/
theorem starvation_discount_profile_witness :
    jobOld.priority ≠ PriorityTier.IMMEDIATE ∧
      (500 : Rat) - jobOld.createdAt = 300 + 200 ∧
      starvationDiscount jobOld 500 300 = 200 := by
  refine ⟨by decide, by norm_num [jobOld], ?_⟩
  exact ((starvation_discount_profile jobOld 500 300).1 (by decide)).2.1
    (by norm_num [jobOld])

/-! ## Battery-store lemmas and claim -/

theorem updateFirstAgent_mem {agentId : String} {f : Agent → Agent} :
    ∀ {l : List Agent} {a' : Agent}, a' ∈ updateFirstAgent agentId f l →
      a' ∈ l ∨ ∃ a ∈ l, a' = f a := by
  intro l
  induction l with
  | nil =>
    intro a' h
    simp [updateFirstAgent] at h
  | cons a rest ih =>
    intro a' h
    unfold updateFirstAgent at h
    by_cases hid : a.id = agentId
    · rw [if_pos hid] at h
      rcases List.mem_cons.mp h with rfl | hm
      · exact Or.inr ⟨a, List.mem_cons_self _ _, rfl⟩
      · exact Or.inl (List.mem_cons_of_mem _ hm)
    · rw [if_neg hid] at h
      rcases List.mem_cons.mp h with rfl | hm
      · exact Or.inl (List.mem_cons_self _ _)
      · rcases ih hm with h1 | ⟨b, hb, he⟩
        · exact Or.inl (List.mem_cons_of_mem _ h1)
        · exact Or.inr ⟨b, List.mem_cons_of_mem _ hb, he⟩

/-- C8: for any agent roster satisfying `0 ≤ battery ≤ maxBattery` and any
non-negative amount, `drainBattery` keeps every battery ≥ 0 and
`chargeBattery` keeps every battery ≤ maxBattery — the invariant
`0 ≤ battery ≤ maxBattery` is preserved by both battery mutators. -/
theorem battery_mutators_preserve_bounds (agents : List Agent)
    (agentId : String) (amount : Rat) (hamt : 0 ≤ amount)
    (hinv : ∀ a ∈ agents, 0 ≤ a.battery ∧ a.battery ≤ a.maxBattery) :
    (∀ a ∈ drainBattery agents agentId amount,
      0 ≤ a.battery ∧ a.battery ≤ a.maxBattery) ∧
    (∀ a ∈ chargeBattery agents agentId amount,
      0 ≤ a.battery ∧ a.battery ≤ a.maxBattery) := by
  constructor
  · intro a ha
    rcases updateFirstAgent_mem ha with h | ⟨b, hb, rfl⟩
    · exact hinv a h
    · obtain ⟨h1, h2⟩ := hinv b hb
      refine ⟨le_max_left 0 _, ?_⟩
      exact max_le (le_trans h1 h2) (by linarith)
  · intro a ha
    rcases updateFirstAgent_mem ha with h | ⟨b, hb, rfl⟩
    · exact hinv a h
    · obtain ⟨h1, h2⟩ := hinv b hb
      refine ⟨le_min (le_trans h1 h2) (by linarith), min_le_left _ _⟩

/-- Witness for C8: a 50%-battery agent drained and charged by 10. -/
theorem battery_mutators_preserve_bounds_witness :
    (0 : Rat) ≤ 10 ∧
      (∀ a ∈ drainBattery [agentB] "agent-b" 10,
        0 ≤ a.battery ∧ a.battery ≤ a.maxBattery) ∧
      ∀ a ∈ chargeBattery [agentB] "agent-b" 10,
        0 ≤ a.battery ∧ a.battery ≤ a.maxBattery := by
  have h := battery_mutators_preserve_bounds [agentB] "agent-b" 10
    (by norm_num) (by decide)
  exact ⟨by norm_num, h.1, h.2⟩

/-! ## Pathfinder claims -/

/-- C3: the pathfinder treats a cell as traversable iff `walkable` is true,
`isObstacle` and `isQuarantine` are false, and — when the cell is
restricted, declares a non-empty required-profile list and an agent is
supplied — the agent's access profiles intersect that list; with no agent
supplied, restriction is not checked; a quarantined cell is traversable for
no agent. -/
theorem isCellWalkable_characterization (cell : GridCell)
    (ag : Option Agent) :
    (isCellWalkable cell ag = true ↔
      cell.walkable = true ∧ cell.isObstacle = false ∧
        cell.isQuarantine = false ∧
        ∀ a : Agent, ag = some a → cell.isRestricted = true →
          cell.restrictedAccessProfiles.getD [] ≠ [] →
          ∃ p ∈ a.accessProfiles,
            p ∈ cell.restrictedAccessProfiles.getD []) ∧
    (isCellWalkable cell none = true ↔
      cell.walkable = true ∧ cell.isObstacle = false ∧
        cell.isQuarantine = false) ∧
    (cell.isQuarantine = true → isCellWalkable cell ag = false) := by
  obtain ⟨w, ob, qr, rs, rap⟩ := cell
  refine ⟨?_, ?_, ?_⟩
  · cases w <;> cases ob <;> cases qr <;> cases rs <;> cases ag <;>
      simp [isCellWalkable, List.any_eq_true, List.length_pos,
        or_iff_not_imp_left]
  · cases w <;> cases ob <;> cases qr <;> cases rs <;>
      simp [isCellWalkable]
  · intro hq
    subst hq
    cases w <;> cases ob <;> cases ag <;> simp [isCellWalkable]

/-- Witness for C3 at the open cell with no agent. -/
theorem isCellWalkable_characterization_witness :
    isCellWalkable openCell none = true ∧
      openCell.walkable = true ∧ openCell.isObstacle = false ∧
      openCell.isQuarantine = false := by
  refine ⟨?_, rfl, rfl, rfl⟩
  exact (isCellWalkable_characterization openCell none).2.1.mpr
    ⟨rfl, rfl, rfl⟩

/-- C1: whenever `findPath` returns a path, its length (positions − 1) is
minimal among all 4-directionally connected sequences of traversable cells
from start to end; in particular, on the open 5×5 grid with no obstacles the
path from (0,0) to (4,4) has length 8, equal to the Manhattan distance. -/
theorem findPath_optimal :
    (∀ (floor : Floor) (start endP : Position) (ag : Option Agent)
      (path : List Position),
      findPath floor start endP ag = some path →
      ∀ seq, TraversableSeq floor ag seq → seq.head? = some start →
        seq.getLast? = some endP →
        getPathLength path ≤ getPathLength seq) ∧
    (findPath open5Floor ⟨0, 0⟩ ⟨4, 4⟩ none).map getPathLength = some 8 ∧
    manhattan ⟨0, 0⟩ ⟨4, 4⟩ = 8 := by
  refine ⟨?_, by decide, by decide⟩
  intro floor start endP ag path h seq hseq hhead hlast
  obtain ⟨_, _, _, hmin⟩ := findPath_minimal h
  have hps : PathOk floor ag start seq :=
    ⟨hhead, chain_upgrade seq hseq.2.1 hseq.2.2⟩
  have hlen := hmin seq hps hlast
  unfold getPathLength
  omega

/-- Witness for C1: the concrete 5×5 search result compared against itself
as a traversable sequence. -/
theorem findPath_optimal_witness :
    findPath open5Floor ⟨0, 0⟩ ⟨4, 4⟩ none = some fivePath ∧
      TraversableSeq open5Floor none fivePath ∧
      fivePath.head? = some ⟨0, 0⟩ ∧
      fivePath.getLast? = some ⟨4, 4⟩ ∧
      getPathLength fivePath ≤ getPathLength fivePath := by
  have hts : TraversableSeq open5Floor none fivePath := by
    refine ⟨by decide, ?_, by decide⟩
    norm_num [fivePath, List.chain'_cons, neighborsOfPos]
  refine ⟨by decide, hts, by decide, by decide, ?_⟩
  exact findPath_optimal.1 open5Floor ⟨0, 0⟩ ⟨4, 4⟩ none fivePath (by decide)
    fivePath hts (by decide) (by decide)

/-- C10: `findPath` never validates the start cell's own traversability: on
the corridor floor whose start cell (0,0) is an obstacle while (2,0) is
traversable and reachable through (1,0), it returns the path
[(0,0), (1,0), (2,0)] beginning at the untraversable start cell instead of
failing. -/
theorem findPath_start_unchecked :
    isCellWalkable obstacleCell none = false ∧
      cellAt corridorFloor.grid ⟨0, 0⟩ = some obstacleCell ∧
      findPath corridorFloor ⟨0, 0⟩ ⟨2, 0⟩ none =
        some [⟨0, 0⟩, ⟨1, 0⟩, ⟨2, 0⟩] := by
  refine ⟨by decide, by decide, by decide⟩

/-! ## Dispatcher and tick-executor claims on concrete states -/

/-- C5 (code bug): for a job with no pickup leg, `findBestAgentForJob` does
NOT route a single leg from the agent straight to the dropoff — the
`job.pickup?.position || (0, 0)` fallback routes both probed legs through
cell (0,0).  On the corridor fixture whose (0,0) is an obstacle, the only
candidate is rejected (result `none`) although the direct leg to the
dropoff exists and `createAgentPlan` (same file) happily builds the direct
plan for that very agent and job. -/
theorem findBestAgent_no_pickup_uses_origin_fallback :
    findBestAgentForJob jobNoPickup [agentA] corridorMap = none ∧
      jobNoPickup.pickup = none ∧
      findPath corridorFloor agentA.position jobNoPickup.dropoff.position
        (some agentA) = some [⟨1, 0⟩, ⟨2, 0⟩] ∧
      findPath corridorFloor agentA.position (⟨0, 0⟩ : Position)
        (some agentA) = none ∧
      (createAgentPlan agentA jobNoPickup corridorMap 0).isSome = true := by
  refine ⟨by decide, rfl, by decide, by decide, by decide⟩

/-- C4 (code bug): when the tick executor's critical-battery branch fires
for an agent holding a job, it clears the agent's job reference but leaves
the job store untouched: the job stays `ASSIGNED` (with its stale agent
reference), so it is invisible both to the dispatcher's `QUEUED`-only
filter and to the unassigned list — a subsequent dispatcher pass cannot
reassign it. -/
theorem critical_battery_leaves_job_assigned :
    (criticalBatteryTick [agentCritical] [jobAssigned] agentCritical).2 =
      [jobAssigned] ∧
      jobAssigned.state = JobState.ASSIGNED ∧
      jobAssigned.state ≠ JobState.QUEUED ∧
      (criticalBatteryTick [agentCritical] [jobAssigned]
          agentCritical).1.map (fun a => a.currentJobId) = [none] ∧
      ((criticalBatteryTick [agentCritical] [jobAssigned]
          agentCritical).2.filter fun j => j.state = .QUEUED) = [] ∧
      (createPlan
        (criticalBatteryTick [agentCritical] [jobAssigned] agentCritical).2
        (criticalBatteryTick [agentCritical] [jobAssigned] agentCritical).1
        corridorMap 10).agentPlans = [] ∧
      (createPlan
        (criticalBatteryTick [agentCritical] [jobAssigned] agentCritical).2
        (criticalBatteryTick [agentCritical] [jobAssigned] agentCritical).1
        corridorMap 10).unassignedJobIds = [] := by
  refine ⟨by decide, rfl, by decide, by decide, by decide, by decide,
    by decide⟩

/-! ## Payload round trip (pickup then dropoff) -/

theorem find?_updateFirstJob {jobs : List Job} {jobId : String}
    {f : Job → Job} {job : Job}
    (hfind : jobs.find? (fun j => j.id = jobId) = some job)
    (hid : ∀ j, (f j).id = j.id) :
    (updateFirstJob jobId f jobs).find? (fun j => j.id = jobId) =
      some (f job) := by
  induction jobs with
  | nil => simp at hfind
  | cons j rest ih =>
    unfold updateFirstJob
    by_cases hj : j.id = jobId
    · rw [if_pos hj]
      rw [List.find?_cons_of_pos _ (by simp [hj])] at hfind
      have hjj : j = job := Option.some.inj hfind
      subst hjj
      rw [List.find?_cons_of_pos _ (by simp [hid j, hj])]
    · rw [if_neg hj]
      rw [List.find?_cons_of_neg _ (by simp [hj])] at hfind
      rw [List.find?_cons_of_neg _ (by simp [hj])]
      exact ih hfind

theorem find?_markPickedUp {jobs : List Job} {jobId : String} {job : Job}
    (t : Rat)
    (hfind : jobs.find? (fun j => j.id = jobId) = some job) :
    (markPickedUp jobs jobId t).find? (fun j => j.id = jobId) =
      some { job with
        progress := some { job.progress.getD ⟨false, none, none⟩ with
          pickedUp := true, pickupTime := some t },
        state := .IN_PROGRESS } :=
  find?_updateFirstJob hfind fun _ => rfl

theorem find?_setJobState {jobs : List Job} {jobId : String} {job : Job}
    (st : JobState) (r : Option String)
    (hfind : jobs.find? (fun j => j.id = jobId) = some job) :
    (setJobState jobs jobId st r).find? (fun j => j.id = jobId) =
      some { job with state := st } :=
  find?_updateFirstJob hfind fun _ => rfl

/-- C7: an agent running a single-job route with a `PICKUP` then a
`DROPOFF` ends the dropoff with exactly its pre-pickup payload (0 when it
started empty): the pickup adds the item weight and the completed delivery
subtracts it again.  The `allDelivered` reset-to-0 branch does not fire on
the delivery tick, because it consults the tick-start snapshot in which the
job is not yet delivered. -/
theorem payload_round_trip (a : Agent) (job : Job) (jobs : List Job)
    (t1 t2 : Rat)
    (hfind : jobs.find? (fun j => j.id = job.id) = some job)
    (hprog : job.progress = none)
    (hp0 : 0 ≤ a.currentPayload) :
    ∃ a1 jobs1 a2 jobs2,
      completePickup [a] jobs a t1 [job.id] = ([a1], jobs1) ∧
      completeDropoff [a1] jobs1 a1 [job.id] t2 = ([a2], jobs2) ∧
      a1.currentPayload = a.currentPayload + job.item.weight ∧
      a2.currentPayload = a.currentPayload := by
  have hnp : progressPickedUp job = false := by
    simp [progressPickedUp, hprog]
  refine ⟨{ a with currentPayload := a.currentPayload + job.item.weight },
    setJobState (markPickedUp jobs job.id t1) job.id .IN_PROGRESS none,
    { a with currentPayload :=
      (max 0 (a.currentPayload + job.item.weight - job.item.weight)) },
    markDelivered
      (setJobState (markPickedUp jobs job.id t1) job.id .IN_PROGRESS none)
      job.id t2,
    ?_, ?_, rfl, ?_⟩
  · unfold completePickup
    rw [hfind]
    dsimp only
    rw [hnp]
    simp [setPayload, updateFirstAgent]
  · have hfind1 : (setJobState (markPickedUp jobs job.id t1) job.id
        .IN_PROGRESS none).find? (fun j => j.id = job.id) =
        some { job with
               progress := some ⟨true, some t1, none⟩,
               state := .IN_PROGRESS } := by
      have h2 := find?_setJobState .IN_PROGRESS none (find?_markPickedUp t1 hfind)
      simpa [hprog] using h2
    have hpk : progressPickedUp { job with
        progress := some ⟨true, some t1, none⟩,
        state := JobState.IN_PROGRESS } = true := by
      simp [progressPickedUp]
    have hdl : progressDelivered { job with
        progress := some ⟨true, some t1, none⟩,
        state := JobState.IN_PROGRESS } = false := by
      simp [progressDelivered, truthyTime]
    unfold completeDropoff deliverFirst
    rw [hfind1]
    dsimp only
    rw [hpk, hdl]
    simp [setPayload, updateFirstAgent, hfind1, hdl]
  · have hw : a.currentPayload + job.item.weight - job.item.weight =
        a.currentPayload := by
      ring
    simp [hw, max_eq_right hp0]

/-- Witness for C7: `agentC7` (payload 2) carries `jobC7` (3 kg) through a
pickup at t = 10 and a dropoff at t = 30. -/
theorem payload_round_trip_witness :
    [jobC7].find? (fun j => j.id = jobC7.id) = some jobC7 ∧
      jobC7.progress = none ∧ (0 : Rat) ≤ agentC7.currentPayload ∧
      ∃ a1 jobs1 a2 jobs2,
        completePickup [agentC7] [jobC7] agentC7 10 [jobC7.id] =
          ([a1], jobs1) ∧
        completeDropoff [a1] jobs1 a1 [jobC7.id] 30 = ([a2], jobs2) ∧
        a1.currentPayload = agentC7.currentPayload + jobC7.item.weight ∧
        a2.currentPayload = agentC7.currentPayload := by
  refine ⟨by decide, rfl, by decide, ?_⟩
  exact payload_round_trip agentC7 jobC7 [jobC7] 10 30 (by decide) rfl
    (by decide)

/-! ## Replan-cooldown claims -/

theorem replanGate_not_fired {refs : ReplanRefs} {t : Rat} {qc ic : Nat}
    {har pjc : Bool} {ids : String}
    (h : (replanGate refs t qc ic har pjc ids).1 = false) :
    (replanGate refs t qc ic har pjc ids).2 = refs := by
  unfold replanGate at h ⊢
  dsimp only at h ⊢
  split_ifs at h ⊢ <;> rfl

theorem replanGate_fired_refs {refs : ReplanRefs} {t : Rat} {qc ic : Nat}
    {har pjc : Bool} {ids : String}
    (h : (replanGate refs t qc ic har pjc ids).1 = true) :
    (replanGate refs t qc ic har pjc ids).2 = ⟨some t, ids⟩ := by
  unfold replanGate at h ⊢
  dsimp only at h ⊢
  split_ifs at h ⊢ <;> rfl

theorem replanGate_fired_cooldown {refs : ReplanRefs} {t : Rat}
    {qc ic : Nat} {har : Bool} {ids : String}
    (h : (replanGate refs t qc ic har false ids).1 = true)
    (hids : refs.lastQueuedJobIds = ids) :
    ∀ t0, refs.lastReplanTime = some t0 → REPLAN_COOLDOWN ≤ t - t0 := by
  intro t0 ht0
  unfold replanGate at h
  dsimp only at h
  split_ifs at h with h1 h2
  rcases h2 with hA | hB | hC
  · exact absurd hids.symm hA
  · simp at hB
  · rw [ht0] at hC
    simpa using hC

theorem runGate_all_ge (ids : String) :
    ∀ (ticks : List GateTick) (refs : ReplanRefs) (t0 : Rat),
      refs.lastReplanTime = some t0 → refs.lastQueuedJobIds = ids →
      (∀ tk ∈ ticks, tk.planJustCleared = false) →
      ∀ x ∈ runGate ids refs ticks, t0 + REPLAN_COOLDOWN ≤ x := by
  intro ticks
  induction ticks with
  | nil =>
    intro refs t0 _ _ _ x hx
    simp [runGate] at hx
  | cons tk rest ih =>
    intro refs t0 ht0 hids hpjc x hx
    have hpjc0 : tk.planJustCleared = false := hpjc tk (by simp)
    unfold runGate at hx
    dsimp only at hx
    by_cases hf : (replanGate refs tk.t tk.queuedCount tk.idleCount
        tk.hasActiveRoutes tk.planJustCleared ids).1 = true
    · rw [if_pos hf] at hx
      have hrefs := replanGate_fired_refs hf
      have hcool : REPLAN_COOLDOWN ≤ tk.t - t0 := by
        rw [hpjc0] at hf
        exact replanGate_fired_cooldown hf hids t0 ht0
      rcases List.mem_cons.mp hx with rfl | hx'
      · linarith
      · have hrec := ih (replanGate refs tk.t tk.queuedCount tk.idleCount
          tk.hasActiveRoutes tk.planJustCleared ids).2 tk.t
          (by rw [hrefs]) (by rw [hrefs])
          (fun u hu => hpjc u (List.mem_cons_of_mem _ hu)) x hx'
        have h5 : (0 : Rat) < REPLAN_COOLDOWN := by
          norm_num [REPLAN_COOLDOWN]
        linarith
    · rw [if_neg hf] at hx
      have hrefs := replanGate_not_fired (Bool.not_eq_true _ ▸ hf)
      exact ih _ t0 (by rw [hrefs]; exact ht0) (by rw [hrefs]; exact hids)
        (fun u hu => hpjc u (List.mem_cons_of_mem _ hu)) x hx

theorem runGate_gaps (ids : String) :
    ∀ (ticks : List GateTick) (refs : ReplanRefs),
      (∀ tk ∈ ticks, tk.planJustCleared = false) →
      List.Chain' (fun x y => x + REPLAN_COOLDOWN ≤ y)
        (runGate ids refs ticks) := by
  intro ticks
  induction ticks with
  | nil =>
    intro refs _
    simp [runGate]
  | cons tk rest ih =>
    intro refs hpjc
    unfold runGate
    dsimp only
    by_cases hf : (replanGate refs tk.t tk.queuedCount tk.idleCount
        tk.hasActiveRoutes tk.planJustCleared ids).1 = true
    · rw [if_pos hf]
      have hrefs := replanGate_fired_refs hf
      rw [List.chain'_cons']
      constructor
      · intro y hy
        have hmem : y ∈ runGate ids (replanGate refs tk.t tk.queuedCount
            tk.idleCount tk.hasActiveRoutes tk.planJustCleared ids).2 rest :=
          List.mem_of_mem_head? hy
        exact runGate_all_ge ids rest _ tk.t (by rw [hrefs]) (by rw [hrefs])
          (fun u hu => hpjc u (List.mem_cons_of_mem _ hu)) y hmem
      · exact ih _ (fun u hu => hpjc u (List.mem_cons_of_mem _ hu))
    · rw [if_neg hf]
      exact ih _ (fun u hu => hpjc u (List.mem_cons_of_mem _ hu))

theorem gap_all_ge :
    ∀ (l : List Rat) (x : Rat),
      List.Chain' (fun u v => u + REPLAN_COOLDOWN ≤ v) (x :: l) →
      ∀ y ∈ l, x + REPLAN_COOLDOWN ≤ y := by
  intro l
  induction l with
  | nil => simp
  | cons b l' ih =>
    intro x hc y hy
    rw [List.chain'_cons] at hc
    rcases List.mem_cons.mp hy with rfl | hy'
    · exact hc.1
    · have hb := ih b hc.2 y hy'
      have h5 : (0 : Rat) < REPLAN_COOLDOWN := by norm_num [REPLAN_COOLDOWN]
      linarith [hc.1]

theorem gap_chain_filter (p : Rat → Bool) :
    ∀ l, List.Chain' (fun u v => u + REPLAN_COOLDOWN ≤ v) l →
      List.Chain' (fun u v => u + REPLAN_COOLDOWN ≤ v) (l.filter p) := by
  intro l
  induction l with
  | nil => simp
  | cons x l' ih =>
    intro hc
    have htail := (List.chain'_cons'.mp hc).2
    rw [List.filter_cons]
    by_cases hx : p x
    · rw [if_pos hx]
      rw [List.chain'_cons']
      refine ⟨?_, ih htail⟩
      intro y hy
      have hy1 : y ∈ l'.filter p := List.mem_of_mem_head? hy
      exact gap_all_ge l' x hc y (List.mem_of_mem_filter hy1)
    · rw [if_neg hx]
      exact ih htail

theorem window_bound :
    ∀ (l : List Rat),
      List.Chain' (fun u v => u + REPLAN_COOLDOWN ≤ v) l →
      ∀ (lo : Rat) (k : Nat), (∀ y ∈ l, lo ≤ y) →
      (l.filter fun x =>
        decide (x < lo + REPLAN_COOLDOWN * (k : Rat))).length ≤ k := by
  intro l
  induction l with
  | nil =>
    intro _ lo k _
    simp
  | cons x l' ih =>
    intro hc lo k hge
    have htail := (List.chain'_cons'.mp hc).2
    rw [List.filter_cons]
    by_cases hx : x < lo + REPLAN_COOLDOWN * (k : Rat)
    · rw [if_pos (by simpa using hx)]
      have hk : 0 < k := by
        by_contra hk0
        push_neg at hk0
        have hk0' : k = 0 := Nat.le_zero.mp hk0
        subst hk0'
        have hlo := hge x (List.mem_cons_self _ _)
        norm_num at hx
        linarith
      have hge' : ∀ y ∈ l', lo + REPLAN_COOLDOWN ≤ y := by
        intro y hy
        have h1 := gap_all_ge l' x hc y hy
        have h2 := hge x (List.mem_cons_self _ _)
        linarith
      have hrec := ih htail (lo + REPLAN_COOLDOWN) (k - 1) hge'
      have hfi : l'.filter (fun y =>
          decide (y < lo + REPLAN_COOLDOWN +
            REPLAN_COOLDOWN * ((k - 1 : Nat) : Rat))) =
          l'.filter (fun y =>
            decide (y < lo + REPLAN_COOLDOWN * (k : Rat))) := by
        apply List.filter_congr
        intro y _
        rw [decide_eq_decide]
        have hcast : ((k - 1 : Nat) : Rat) = (k : Rat) - 1 := by
          push_cast [Nat.cast_sub hk]
          ring
        rw [hcast]
        constructor <;> intro <;> linarith
      rw [hfi] at hrec
      simp only [List.length_cons]
      omega
    · rw [if_neg (by simpa using hx)]
      exact ih htail lo k fun y hy => hge y (List.mem_cons_of_mem _ hy)

/-- C9: over any run of ticks with a fixed queued-job-id fingerprint and no
plan cleared, consecutive dispatcher invocations fired by the tick
executor's gate are at least `REPLAN_COOLDOWN` (5 simulated seconds) apart;
hence any half-open 20-second window contains at most ⌈20/5⌉ = 4
invocations, not one per tick. -/
theorem replan_cooldown_bound (ids : String) (ticks : List GateTick)
    (refs : ReplanRefs)
    (hpjc : ∀ tk ∈ ticks, tk.planJustCleared = false) :
    List.Chain' (fun x y => x + REPLAN_COOLDOWN ≤ y)
      (runGate ids refs ticks) ∧
    ∀ lo : Rat,
      ((runGate ids refs ticks).filter
        (fun x => decide (lo ≤ x) && decide (x < lo + 20))).length ≤ 4 := by
  have hchain := runGate_gaps ids ticks refs hpjc
  refine ⟨hchain, ?_⟩
  intro lo
  have hsplit : (runGate ids refs ticks).filter
      (fun x => decide (lo ≤ x) && decide (x < lo + 20)) =
      ((runGate ids refs ticks).filter (fun x => decide (lo ≤ x))).filter
        (fun x => decide (x < lo + 20)) := by
    rw [List.filter_filter]
    apply List.filter_congr
    intro y _
    exact Bool.and_comm _ _
  rw [hsplit]
  have hchain' := gap_chain_filter (fun x => decide (lo ≤ x)) _ hchain
  have hge : ∀ y ∈ (runGate ids refs ticks).filter
      (fun x => decide (lo ≤ x)), lo ≤ y := by
    intro y hy
    have := List.of_mem_filter hy
    simpa using this
  have hwin := window_bound _ hchain' lo 4 hge
  have heq : ((runGate ids refs ticks).filter
      (fun x => decide (lo ≤ x))).filter
        (fun x => decide (x < lo + REPLAN_COOLDOWN * ((4 : Nat) : Rat))) =
      ((runGate ids refs ticks).filter
        (fun x => decide (lo ≤ x))).filter
        (fun x => decide (x < lo + 20)) := by
    apply List.filter_congr
    intro y _
    rw [decide_eq_decide]
    have h20 : lo + REPLAN_COOLDOWN * ((4 : Nat) : Rat) = lo + 20 := by
      norm_num [REPLAN_COOLDOWN]
    rw [h20]
  rw [← heq]
  exact hwin

/-- Witness for C9: three consecutive one-second ticks with queued jobs and
idle agents, starting from the initial refs. -/
theorem replan_cooldown_bound_witness :
    (∀ tk ∈ [idleTick 0, idleTick 1, idleTick 2],
      tk.planJustCleared = false) ∧
      List.Chain' (fun x y => x + REPLAN_COOLDOWN ≤ y)
        (runGate "job-1" ⟨none, ""⟩ [idleTick 0, idleTick 1, idleTick 2]) := by
  have h := replan_cooldown_bound "job-1" [idleTick 0, idleTick 1, idleTick 2]
    ⟨none, ""⟩ (by decide)
  exact ⟨by decide, h.1⟩

end MedFlow
